import Mathlib

/-!
# Bounded drop-oldest queue (`src/qeuethread.cpp`)

A shallow embedding of the class template `Queue<T>` and a verification of its
sequential contract.

Modelling conventions.

* The five data members `data`, `capacity`, `size`, `front`, `rear` become the
  fields of the structure `Queue`.  The `int` members are mathematical
  integers; every arithmetic step of the code is performed by a checked
  operation (`addInt`, `subInt`, `modInt`) that reports signed overflow and a
  zero divisor, both undefined behaviour in C++.
* `T* data` is the list of the slots of the allocated array; a subscript
  outside the array is reported as undefined behaviour.
* A member function is a function from the state before the call to an
  `Outcome`: it returns (with the state after the call), throws (with the state
  the object is left in), runs into undefined behaviour, or blocks forever.
* `new T[capacity]` throws for a negative length and otherwise yields
  `capacity` default-initialised slots; running out of memory is not modelled.
* Calls are sequential: no other thread runs between the start and the end of
  a call.  The mutex and the notification in `Push` therefore have no effect on
  the outcome, a wait (`Pop`) whose predicate is false never ends, and a timed
  wait (`PopWithTimeout`) whose predicate is false ends with the predicate
  still false.
-/

/-! ## Machine integers -/

/-- Largest value of a C++ `int` (32 bits). -/
def INT_MAX : Int := 2147483647

/-- Smallest value of a C++ `int` (32 bits). -/
def INT_MIN : Int := -2147483648

/-- Undefined behaviour a call can run into. -/
inductive UB where
  /-- Signed integer overflow. -/
  | signedOverflow
  /-- The second operand of `%` is zero. -/
  | divisionByZero
  /-- A subscript outside the allocated array. -/
  | outOfBounds
  deriving DecidableEq, Repr

/-- C++ exceptions the class can raise. -/
inductive Exn where
  /-- `std::runtime_error(what)`. -/
  | runtime_error (what : String)
  /-- `std::bad_array_new_length`, raised by `new T[n]` for a negative `n`. -/
  | bad_array_new_length
  /-- `std::invalid_argument(what)`; no statement of the class raises it. -/
  | invalid_argument (what : String)
  deriving DecidableEq, Repr

/-- `a + b` on `int`. -/
def addInt (a b : Int) : Except UB Int :=
  if INT_MIN ≤ a + b ∧ a + b ≤ INT_MAX then .ok (a + b) else .error .signedOverflow

/-- `a - b` on `int`. -/
def subInt (a b : Int) : Except UB Int :=
  if INT_MIN ≤ a - b ∧ a - b ≤ INT_MAX then .ok (a - b) else .error .signedOverflow

/-- `a % b` on `int`: the remainder of the division truncated towards zero. -/
def modInt (a b : Int) : Except UB Int :=
  if b = 0 then .error .divisionByZero
  else if a = INT_MIN ∧ b = -1 then .error .signedOverflow
  else .ok (Int.tmod a b)

/-- `data[i]` as an rvalue. -/
def readAt {T : Type} (data : List T) (i : Int) : Except UB T :=
  if 0 ≤ i then
    match data[i.toNat]? with
    | some x => .ok x
    | none => .error .outOfBounds
  else .error .outOfBounds

/-- `data[i] = x`. -/
def writeAt {T : Type} (data : List T) (i : Int) (x : T) : Except UB (List T) :=
  if 0 ≤ i ∧ i.toNat < data.length then .ok (data.set i.toNat x)
  else .error .outOfBounds

/-! ## The class -/

/-- Data members of `Queue<T>` (the mutex and the condition variable carry no
data in a sequential run). -/
structure Queue (T : Type) where
  /-- Slots of the array `data` points to. -/
  data : List T
  /-- The maximum number of elements the queue can hold. -/
  capacity : Int
  /-- The current number of elements in the queue. -/
  size : Int
  /-- The index of the front element in the queue. -/
  front : Int
  /-- The index of the rear element in the queue. -/
  rear : Int
  deriving DecidableEq, Repr

/-- Result of a call of a member function on a queue. -/
inductive Outcome (T : Type) (α : Type) where
  /-- The call returns `a` and leaves the object in state `q`. -/
  | returns (a : α) (q : Queue T)
  /-- The call throws `e` and leaves the object in state `q`. -/
  | throws (e : Exn) (q : Queue T)
  /-- The call has undefined behaviour. -/
  | undefined (u : UB)
  /-- The call never returns. -/
  | blocks
  deriving DecidableEq, Repr

/-- A call whose statements after the wait cannot throw: it returns what the
statements compute unless one of them is undefined. -/
def Outcome.ofExcept {T α : Type} : Except UB (α × Queue T) → Outcome T α
  | .ok (a, q) => .returns a q
  | .error u => .undefined u

/-- State of the object after the call, when the caller gets control back. -/
def Outcome.state? {T α : Type} : Outcome T α → Option (Queue T)
  | .returns _ q => some q
  | .throws _ q => some q
  | .undefined _ => none
  | .blocks => none

/-- `Queue(int size) : capacity(size), size(0), front(0), rear(0)` with body
`data = new T[capacity]`; the new slots hold `default`. -/
def Queue.ctor {T : Type} [Inhabited T] (size : Int) : Except Exn (Queue T) :=
  let capacity := size
  if capacity < 0 then .error .bad_array_new_length
  else .ok { data := List.replicate capacity.toNat default,
             capacity := capacity, size := 0, front := 0, rear := 0 }

/-- `void Push(T element)`. -/
def Queue.Push {T : Type} (q : Queue T) (element : T) : Outcome T Unit :=
  Outcome.ofExcept (do
    -- if (size == capacity) { front = (front + 1) % capacity; size--; }
    let q ← (if q.size = q.capacity then do
        let front ← modInt (← addInt q.front 1) q.capacity
        let size ← subInt q.size 1
        pure { q with front := front, size := size }
      else pure q)
    -- data[rear] = element;
    let data ← writeAt q.data q.rear element
    -- rear = (rear + 1) % capacity;
    let rear ← modInt (← addInt q.rear 1) q.capacity
    -- size++;
    let size ← addInt q.size 1
    pure ((), { q with data := data, rear := rear, size := size }))

/-- `T Pop()`. -/
def Queue.Pop {T : Type} (q : Queue T) : Outcome T T :=
  -- cond_var.wait(lock, [this] { return size > 0; });
  if ¬ (q.size > 0) then .blocks
  else Outcome.ofExcept (do
    -- T element = data[front];
    let element ← readAt q.data q.front
    -- front = (front + 1) % capacity;
    let front ← modInt (← addInt q.front 1) q.capacity
    -- size--;
    let size ← subInt q.size 1
    -- return element;
    pure (element, { q with front := front, size := size }))

/-- `T PopWithTimeout(int milliseconds)`. -/
def Queue.PopWithTimeout {T : Type} (q : Queue T) (milliseconds : Int) : Outcome T T :=
  -- if (!cond_var.wait_for(lock, std::chrono::milliseconds(milliseconds),
  --       [this] { return size > 0; }))
  --     throw std::runtime_error("Timeout: Queue is empty");
  let _ := milliseconds
  if ¬ (q.size > 0) then .throws (.runtime_error "Timeout: Queue is empty") q
  else Outcome.ofExcept (do
    -- T element = data[front];
    let element ← readAt q.data q.front
    -- front = (front + 1) % capacity;
    let front ← modInt (← addInt q.front 1) q.capacity
    -- size--;
    let size ← subInt q.size 1
    -- return element;
    pure (element, { q with front := front, size := size }))

/-- `int Count() const`: takes the lock and returns `size`.  The member `mutex`
is not declared `mutable`, so this body is well-formed C++ only while no caller
instantiates it (the program itself never calls `Count`); the embedding gives
the value its statements compute. -/
def Queue.Count {T : Type} (q : Queue T) : Int := q.size

/-- `int Size() const`. -/
def Queue.Size {T : Type} (q : Queue T) : Int := q.capacity

/-! ## Sequences of calls -/

/-- One call of a mutating member function. -/
inductive Op (T : Type) where
  /-- `Push(element)`. -/
  | push (element : T)
  /-- `Pop()`. -/
  | pop
  /-- `PopWithTimeout(milliseconds)`. -/
  | popWithTimeout (milliseconds : Int)
  deriving DecidableEq, Repr

/-- The call `op` on `q`; the value of a `Push` is `none`, the value of a pop
that returns `x` is `some x`. -/
def Queue.call {T : Type} (q : Queue T) : Op T → Outcome T (Option T)
  | .push element =>
    match q.Push element with
    | .returns _ q1 => .returns none q1
    | .throws e q1 => .throws e q1
    | .undefined u => .undefined u
    | .blocks => .blocks
  | .pop =>
    match q.Pop with
    | .returns x q1 => .returns (some x) q1
    | .throws e q1 => .throws e q1
    | .undefined u => .undefined u
    | .blocks => .blocks
  | .popWithTimeout milliseconds =>
    match q.PopWithTimeout milliseconds with
    | .returns x q1 => .returns (some x) q1
    | .throws e q1 => .throws e q1
    | .undefined u => .undefined u
    | .blocks => .blocks

/-- The calls `ops` made one after the other on `q` by a caller that catches
every exception and goes on: the list of what each call returned or threw and
the final state, or `none` when some call is undefined or blocks. -/
def Queue.run {T : Type} (q : Queue T) :
    List (Op T) → Option (List (Except Exn (Option T)) × Queue T)
  | [] => some ([], q)
  | op :: ops =>
    match q.call op with
    | .returns a q1 =>
      match Queue.run q1 ops with
      | some (outs, q2) => some (.ok a :: outs, q2)
      | none => none
    | .throws e q1 =>
      match Queue.run q1 ops with
      | some (outs, q2) => some (.error e :: outs, q2)
      | none => none
    | .undefined _ => none
    | .blocks => none

/-- Every `Pop` of `ops` is issued in a state with `Count() > 0`.  Nothing is
asked of the calls after one that does not give control back. -/
def Queue.popsGuarded {T : Type} (q : Queue T) : List (Op T) → Bool
  | [] => true
  | op :: ops =>
    (match op with
      | .pop => decide (0 < q.Count)
      | _ => true) &&
    (match (q.call op).state? with
      | some q1 => Queue.popsGuarded q1 ops
      | none => true)

/-- The exception `PopWithTimeout` throws. -/
def Timeout : Exn := .runtime_error "Timeout: Queue is empty"

/-! ## Invariants -/

/-- The structural invariants of the data model: the array has `capacity`
slots, `capacity` is a positive `int`, `0 <= size <= capacity`,
`0 <= front < capacity` and `0 <= rear < capacity`. -/
def Queue.Inv {T : Type} (q : Queue T) : Prop :=
  (q.data.length : Int) = q.capacity ∧ 0 < q.capacity ∧ q.capacity ≤ INT_MAX ∧
  0 ≤ q.size ∧ q.size ≤ q.capacity ∧
  0 ≤ q.front ∧ q.front < q.capacity ∧
  0 ≤ q.rear ∧ q.rear < q.capacity

instance {T : Type} (q : Queue T) : Decidable q.Inv := by
  unfold Queue.Inv; infer_instance

/-- The write index is `size` slots after the read index, circularly. -/
def Queue.Ring {T : Type} (q : Queue T) : Prop :=
  q.rear = (q.front + q.size) % q.capacity

instance {T : Type} (q : Queue T) : Decidable q.Ring := by
  unfold Queue.Ring; infer_instance

/-- Index of the slot `i` places after `front`, circularly. -/
def Queue.slot {T : Type} (q : Queue T) (i : Nat) : Nat :=
  ((q.front + (i : Int)) % q.capacity).toNat

/-- The live contents: the slots read from `front` for `size` places,
circularly, oldest first. -/
def Queue.live {T : Type} (q : Queue T) : List (Option T) :=
  (List.range q.size.toNat).map (fun i => q.data[q.slot i]?)

/-! ## The bounded drop-oldest list of the specification -/

/-- Push on the list: append, and drop the first element when the length would
exceed `c`. -/
def specPush {T : Type} (c : Int) (l : List T) (e : T) : List T :=
  if ((l ++ [e]).length : Int) > c then (l ++ [e]).tail else l ++ [e]

/-- The list model of a sequence of calls: a push appends (dropping the oldest
on overflow), a pop removes and returns the first element, a timed pop does
the same on a non-empty list and fails with `Timeout` on the empty list, which
it leaves as it is.  `none` when a `Pop` is issued on the empty list. -/
def specRun {T : Type} (c : Int) (l : List T) :
    List (Op T) → Option (List (Except Exn (Option T)) × List T)
  | [] => some ([], l)
  | .push e :: ops =>
    match specRun c (specPush c l e) ops with
    | some (outs, l2) => some (.ok none :: outs, l2)
    | none => none
  | .pop :: ops =>
    match l with
    | [] => none
    | x :: l1 =>
      match specRun c l1 ops with
      | some (outs, l2) => some (.ok (some x) :: outs, l2)
      | none => none
  | .popWithTimeout _ :: ops =>
    match l with
    | [] =>
      match specRun c [] ops with
      | some (outs, l2) => some (.error Timeout :: outs, l2)
      | none => none
    | x :: l1 =>
      match specRun c l1 ops with
      | some (outs, l2) => some (.ok (some x) :: outs, l2)
      | none => none


/-- The queue `q` holds the list `l`: the invariants hold, the write index is
`size` slots after the read index, and the slots read from `front` are the
elements of `l`, oldest first. -/
def Queue.Rep {T : Type} (q : Queue T) (l : List T) : Prop :=
  q.Inv ∧ q.Ring ∧ (l.length : Int) = q.size ∧
    ∀ i : Nat, i < l.length → q.data[q.slot i]? = l[i]?

/-! ## The copy of the class in `src/test_queue.cpp`

The test file declares its own class template `Queue<T>` with the same data
members (`data`, `capacity`, `size`, `front`, `rear`), so a state of the copy
is a value of the structure `Queue`.  Its member functions are embedded here
from the test file, under the names `TestQueue.*`. -/

/-- `Queue(int size) : capacity(size), size(0), front(0), rear(0)` with body
`data = new T[capacity]` (test copy). -/
def TestQueue.ctor {T : Type} [Inhabited T] (size : Int) : Except Exn (Queue T) :=
  let capacity := size
  if capacity < 0 then .error .bad_array_new_length
  else .ok { data := List.replicate capacity.toNat default,
             capacity := capacity, size := 0, front := 0, rear := 0 }

/-- `void Push(T element)` (test copy). -/
def TestQueue.Push {T : Type} (q : Queue T) (element : T) : Outcome T Unit :=
  Outcome.ofExcept (do
    -- if (size == capacity) { front = (front + 1) % capacity; size--; }
    let q ← (if q.size = q.capacity then do
        let front ← modInt (← addInt q.front 1) q.capacity
        let size ← subInt q.size 1
        pure { q with front := front, size := size }
      else pure q)
    -- data[rear] = element;
    let data ← writeAt q.data q.rear element
    -- rear = (rear + 1) % capacity;
    let rear ← modInt (← addInt q.rear 1) q.capacity
    -- size++;
    let size ← addInt q.size 1
    pure ((), { q with data := data, rear := rear, size := size }))

/-- `T Pop()` (test copy). -/
def TestQueue.Pop {T : Type} (q : Queue T) : Outcome T T :=
  -- cond_var.wait(lock, [this] { return size > 0; });
  if ¬ (q.size > 0) then .blocks
  else Outcome.ofExcept (do
    -- T element = data[front];
    let element ← readAt q.data q.front
    -- front = (front + 1) % capacity;
    let front ← modInt (← addInt q.front 1) q.capacity
    -- size--;
    let size ← subInt q.size 1
    -- return element;
    pure (element, { q with front := front, size := size }))

/-- `T PopWithTimeout(int milliseconds)` (test copy). -/
def TestQueue.PopWithTimeout {T : Type} (q : Queue T) (milliseconds : Int) : Outcome T T :=
  -- if (!cond_var.wait_for(lock, std::chrono::milliseconds(milliseconds),
  --       [this] { return size > 0; }))
  --     throw std::runtime_error("Timeout: Queue is empty");
  let _ := milliseconds
  if ¬ (q.size > 0) then .throws (.runtime_error "Timeout: Queue is empty") q
  else Outcome.ofExcept (do
    -- T element = data[front];
    let element ← readAt q.data q.front
    -- front = (front + 1) % capacity;
    let front ← modInt (← addInt q.front 1) q.capacity
    -- size--;
    let size ← subInt q.size 1
    -- return element;
    pure (element, { q with front := front, size := size }))

/-- `int Count() const` (test copy; the lock is commented out there). -/
def TestQueue.Count {T : Type} (q : Queue T) : Int := q.size

/-- `int Size() const` (test copy). -/
def TestQueue.Size {T : Type} (q : Queue T) : Int := q.capacity

/-! ## Sessions: a construction followed by calls of the public interface -/

/-- One call of a public member function. -/
inductive Call (T : Type) where
  /-- `Push(element)`. -/
  | push (element : T)
  /-- `Pop()`. -/
  | pop
  /-- `PopWithTimeout(milliseconds)`. -/
  | popWithTimeout (milliseconds : Int)
  /-- `Count()`. -/
  | count
  /-- `Size()`. -/
  | size
  deriving DecidableEq, Repr

/-- Value a call of the public interface returns. -/
inductive Ret (T : Type) where
  /-- Nothing (`void`). -/
  | void
  /-- An element of the queue. -/
  | element (x : T)
  /-- An `int`. -/
  | int (n : Int)
  deriving DecidableEq, Repr

/-- The outcome with its returned value wrapped by `f`. -/
def Outcome.map {T α β : Type} (f : α → β) : Outcome T α → Outcome T β
  | .returns a q => .returns (f a) q
  | .throws e q => .throws e q
  | .undefined u => .undefined u
  | .blocks => .blocks

/-- One call on the class of the program. -/
def Queue.invoke {T : Type} (q : Queue T) : Call T → Outcome T (Ret T)
  | .push element => (q.Push element).map (fun _ => Ret.void)
  | .pop => q.Pop.map Ret.element
  | .popWithTimeout milliseconds => (q.PopWithTimeout milliseconds).map Ret.element
  | .count => .returns (Ret.int q.Count) q
  | .size => .returns (Ret.int q.Size) q

/-- One call on the copy of the class in the test file. -/
def TestQueue.invoke {T : Type} (q : Queue T) : Call T → Outcome T (Ret T)
  | .push element => (TestQueue.Push q element).map (fun _ => Ret.void)
  | .pop => (TestQueue.Pop q).map Ret.element
  | .popWithTimeout milliseconds => (TestQueue.PopWithTimeout q milliseconds).map Ret.element
  | .count => .returns (Ret.int (TestQueue.Count q)) q
  | .size => .returns (Ret.int (TestQueue.Size q)) q

/-- The outcomes, in order, of the calls made one after the other on the class
of the program by a caller that catches every exception; the list ends with
the first call that does not give control back. -/
def Queue.trace {T : Type} (q : Queue T) : List (Call T) → List (Outcome T (Ret T))
  | [] => []
  | call :: calls =>
    q.invoke call ::
      (match (q.invoke call).state? with
        | some q1 => Queue.trace q1 calls
        | none => [])

/-- The same for the copy of the class in the test file. -/
def TestQueue.trace {T : Type} (q : Queue T) : List (Call T) → List (Outcome T (Ret T))
  | [] => []
  | call :: calls =>
    TestQueue.invoke q call ::
      (match (TestQueue.invoke q call).state? with
        | some q1 => TestQueue.trace q1 calls
        | none => [])

/-- Constructing with capacity `c` and making the calls, on the class of the
program. -/
def Queue.session {T : Type} [Inhabited T] (c : Int) (calls : List (Call T)) :
    Except Exn (List (Outcome T (Ret T))) :=
  match Queue.ctor (T := T) c with
  | .ok q => .ok (q.trace calls)
  | .error e => .error e

/-- The same for the copy of the class in the test file. -/
def TestQueue.session {T : Type} [Inhabited T] (c : Int) (calls : List (Call T)) :
    Except Exn (List (Outcome T (Ret T))) :=
  match TestQueue.ctor (T := T) c with
  | .ok q => .ok (TestQueue.trace q calls)
  | .error e => .error e

/-! ## Which member functions a caller can call

A member function of a class template is instantiated when a caller uses it,
and only then is its body checked against the class.  Every body that takes
the lock constructs `std::unique_lock<std::mutex> lock(mutex)`, which needs a
non-const `std::mutex&`.  Inside a member function declared `const` the member
`mutex` is const unless it is declared `mutable`, so such a body is ill-formed
and a caller that uses the function does not compile. -/

/-- What decides whether the body of a member function can be instantiated:
whether the function is declared `const`, and whether its body constructs
`std::unique_lock<std::mutex> lock(mutex)`. -/
structure MemberFn where
  /-- The function is declared `const`. -/
  isConst : Bool
  /-- The body constructs `std::unique_lock<std::mutex> lock(mutex)`. -/
  locksMutex : Bool
  deriving DecidableEq, Repr

/-- The body can be instantiated in a class whose member `mutex` is, or is not,
declared `mutable`. -/
def MemberFn.wellFormed (mutexIsMutable : Bool) (f : MemberFn) : Bool :=
  !(f.isConst && f.locksMutex && !mutexIsMutable)

/-- `std::mutex mutex;` in the class of the program: not `mutable`. -/
def Queue.mutexIsMutable : Bool := false

/-- The member functions of the class of the program: `Push`, `Pop` and
`PopWithTimeout` are not `const` and take the lock; `Count` is `const` and
takes the lock; `Size` is `const` and does not. -/
def Queue.memberFn {T : Type} : Call T → MemberFn
  | .push _ => { isConst := false, locksMutex := true }
  | .pop => { isConst := false, locksMutex := true }
  | .popWithTimeout _ => { isConst := false, locksMutex := true }
  | .count => { isConst := true, locksMutex := true }
  | .size => { isConst := true, locksMutex := false }

/-- `std::mutex mutex;` in the copy of the class in the test file: not
`mutable`. -/
def TestQueue.mutexIsMutable : Bool := false

/-- The member functions of the copy in the test file: as in the program,
except that the lock in `Count` is commented out. -/
def TestQueue.memberFn {T : Type} : Call T → MemberFn
  | .push _ => { isConst := false, locksMutex := true }
  | .pop => { isConst := false, locksMutex := true }
  | .popWithTimeout _ => { isConst := false, locksMutex := true }
  | .count => { isConst := true, locksMutex := false }
  | .size => { isConst := true, locksMutex := false }

/-- A caller that constructs the queue of the program with capacity `c` and
makes the calls: `none` when the caller does not compile because one of the
member functions it calls cannot be instantiated, otherwise what its session
does. -/
def Queue.program {T : Type} [Inhabited T] (c : Int) (calls : List (Call T)) :
    Option (Except Exn (List (Outcome T (Ret T)))) :=
  if calls.all (fun call => (Queue.memberFn call).wellFormed Queue.mutexIsMutable) then
    some (Queue.session c calls)
  else none

/-- The same caller with the copy of the class in the test file. -/
def TestQueue.program {T : Type} [Inhabited T] (c : Int) (calls : List (Call T)) :
    Option (Except Exn (List (Outcome T (Ret T)))) :=
  if calls.all (fun call =>
      (TestQueue.memberFn call).wellFormed TestQueue.mutexIsMutable) then
    some (TestQueue.session c calls)
  else none

/-! ## One producer and one consumer

The producer thread calls `Push` for each of its items, the consumer thread
calls the blocking `Pop`.  Every member function holds the mutex of the queue
while it reads or writes the members, so the calls of the two threads take
effect one at a time, in some order: a schedule, given as the list of the
calls in the order in which they take effect.  `Push` never waits.  The wait
in `Pop` ends only when `size > 0`, so in a schedule each `Pop` takes effect in
a state with `Count() > 0` (`Queue.popsGuarded`). -/

theorem emod_wrap {a c : Int} (h0 : 0 ≤ a) (h1 : a < 2 * c) :
    a % c = if a < c then a else a - c := by
  split
  · exact Int.emod_eq_of_lt h0 (by assumption)
  · have h2 : (a - c + c) % c = (a - c) % c := Int.add_emod_self
    rw [Int.sub_add_cancel] at h2
    rw [h2]
    exact Int.emod_eq_of_lt (by omega) (by omega)

theorem addInt_ok {a b : Int} (h1 : INT_MIN ≤ a + b) (h2 : a + b ≤ INT_MAX) :
    addInt a b = .ok (a + b) := by
  simp [addInt, h1, h2]

theorem subInt_ok {a b : Int} (h1 : INT_MIN ≤ a - b) (h2 : a - b ≤ INT_MAX) :
    subInt a b = .ok (a - b) := by
  simp [subInt, h1, h2]

theorem modInt_ok {a b : Int} (ha : 0 ≤ a) (hb : 0 < b) : modInt a b = .ok (a % b) := by
  have h1 : b ≠ 0 := by omega
  have h2 : ¬ (a = INT_MIN ∧ b = -1) := by omega
  simp [modInt, h1, h2, Int.tmod_eq_emod ha (Int.le_of_lt hb)]

theorem writeAt_ok {T : Type} {data : List T} {i : Int} (x : T) (h0 : 0 ≤ i)
    (h1 : i < data.length) : writeAt data i x = .ok (data.set i.toNat x) := by
  have h2 : i.toNat < data.length := by omega
  simp [writeAt, h0, h2]

theorem readAt_ok {T : Type} {data : List T} {i : Int} {x : T} (h0 : 0 ≤ i)
    (h1 : data[i.toNat]? = some x) : readAt data i = .ok x := by
  simp [readAt, h0, h1]

/-- `Push` in a state that satisfies the structural invariants. -/
theorem Queue.Push_of_inv {T : Type} (q : Queue T) (e : T) (h : q.Inv) :
    q.Push e = .returns ()
      { data := q.data.set q.rear.toNat e
        capacity := q.capacity
        size := if q.size = q.capacity then q.size else q.size + 1
        front := if q.size = q.capacity then (q.front + 1) % q.capacity else q.front
        rear := (q.rear + 1) % q.capacity } := by
  obtain ⟨hlen, hc0, hc1, hs0, hs1, hf0, hf1, hr0, hr1⟩ := h
  have hM : INT_MAX = 2147483647 := rfl
  have hm : INT_MIN = -2147483648 := rfl
  by_cases hfull : q.size = q.capacity
  · simp only [Queue.Push, hfull, if_true]
    rw [addInt_ok (by omega) (by omega)]
    simp only [bind, Except.bind, pure, Except.pure]
    rw [modInt_ok (by omega) hc0, subInt_ok (by omega) (by omega)]
    simp only [bind, Except.bind, pure, Except.pure]
    rw [writeAt_ok e hr0 (by omega), addInt_ok (by omega) (by omega)]
    simp only [bind, Except.bind, pure, Except.pure]
    rw [modInt_ok (by omega) hc0, addInt_ok (by omega) (by omega)]
    simp [Outcome.ofExcept]
  · simp only [Queue.Push, hfull, if_false]
    simp only [bind, Except.bind, pure, Except.pure]
    rw [writeAt_ok e hr0 (by omega), addInt_ok (by omega) (by omega)]
    simp only [bind, Except.bind, pure, Except.pure]
    rw [modInt_ok (by omega) hc0, addInt_ok (by omega) (by omega)]
    simp [Outcome.ofExcept]

/-- `Pop` in a state that satisfies the structural invariants and holds an
element. -/
theorem Queue.Pop_of_inv {T : Type} (q : Queue T) (h : q.Inv) (hs : 0 < q.size) :
    ∃ x, q.data[q.front.toNat]? = some x ∧
      q.Pop = .returns x
        { data := q.data, capacity := q.capacity, size := q.size - 1,
          front := (q.front + 1) % q.capacity, rear := q.rear } := by
  obtain ⟨hlen, hc0, hc1, hs0, hs1, hf0, hf1, hr0, hr1⟩ := h
  have hM : INT_MAX = 2147483647 := rfl
  have hm : INT_MIN = -2147483648 := rfl
  have hlt : q.front.toNat < q.data.length := by omega
  refine ⟨q.data[q.front.toNat], List.getElem?_eq_getElem hlt, ?_⟩
  have hns : ¬ ¬ (q.size > 0) := by omega
  simp only [Queue.Pop, hns, if_false]
  rw [readAt_ok hf0 (List.getElem?_eq_getElem hlt), addInt_ok (by omega) (by omega)]
  simp only [bind, Except.bind, pure, Except.pure]
  rw [modInt_ok (by omega) hc0, subInt_ok (by omega) (by omega)]
  simp [Outcome.ofExcept]

/-- With an element in the queue, the timed pop runs the statements of `Pop`. -/
theorem Queue.PopWithTimeout_eq_Pop {T : Type} (q : Queue T) (ms : Int) (hs : 0 < q.size) :
    q.PopWithTimeout ms = q.Pop := by
  have hns : ¬ ¬ (q.size > 0) := by omega
  simp only [Queue.PopWithTimeout, Queue.Pop, hns, if_false]

/-- With no element in the queue, the timed pop throws and changes nothing. -/
theorem Queue.PopWithTimeout_empty {T : Type} (q : Queue T) (ms : Int) (hs : ¬ 0 < q.size) :
    q.PopWithTimeout ms = .throws Timeout q := by
  simp [Queue.PopWithTimeout, hs, Timeout]

theorem Queue.slot_eq {T : Type} (q : Queue T) (h : q.Inv) (i : Nat) (hi : (i : Int) ≤ q.capacity) :
    q.slot i = if q.front + i < q.capacity then (q.front + i).toNat
      else (q.front + i - q.capacity).toNat := by
  obtain ⟨hlen, hc0, hc1, hs0, hs1, hf0, hf1, hr0, hr1⟩ := h
  unfold Queue.slot
  rw [emod_wrap (by omega) (by omega)]
  split <;> rfl

theorem Queue.live_eq_iff {T : Type} (q : Queue T) (l : List T) (hs : 0 ≤ q.size) :
    q.live = l.map some ↔
      (l.length : Int) = q.size ∧ ∀ i : Nat, i < l.length → q.data[q.slot i]? = l[i]? := by
  unfold Queue.live
  constructor
  · intro h
    have hlen : q.size.toNat = l.length := by
      have := congrArg List.length h
      simpa using this
    refine ⟨by omega, fun i hi => ?_⟩
    have := congrArg (fun m => m[i]?) h
    simp only [List.getElem?_map] at this
    rw [List.getElem?_range (by omega)] at this
    rw [List.getElem?_eq_getElem hi] at this ⊢
    simpa using this
  · rintro ⟨hlen, h⟩
    apply List.ext_getElem?
    intro i
    simp only [List.getElem?_map]
    by_cases hi : i < l.length
    · rw [List.getElem?_range (by omega), List.getElem?_eq_getElem hi]
      have := h i hi
      rw [List.getElem?_eq_getElem hi] at this
      simpa using this
    · rw [List.getElem?_eq_none (by simp; omega), List.getElem?_eq_none (by omega)]
      rfl

theorem Queue.Rep_live {T : Type} {q : Queue T} {l : List T} (h : q.Rep l) :
    q.live = l.map some :=
  (q.live_eq_iff l h.1.2.2.2.1).2 ⟨h.2.2.1, h.2.2.2⟩

theorem Queue.Rep_push {T : Type} (q : Queue T) (l : List T) (e : T) (h : q.Rep l) :
    ∃ q1, q.Push e = .returns () q1 ∧ q1.capacity = q.capacity ∧
      q1.Rep (specPush q.capacity l e) := by
  obtain ⟨hinv, hring, hlen, hpt⟩ := h
  have hinv0 := hinv
  obtain ⟨hdl, hc0, hc1, hs0, hs1, hf0, hf1, hr0, hr1⟩ := hinv
  unfold Queue.Ring at hring
  rw [emod_wrap (by omega) (by omega)] at hring
  refine ⟨_, q.Push_of_inv e hinv0, rfl, ?_⟩
  by_cases hfull : q.size = q.capacity
  · -- the oldest element is dropped
    have hsp : specPush q.capacity l e = l.tail ++ [e] := by
      unfold specPush
      have : ((l ++ [e]).length : Int) > q.capacity := by simp; omega
      rw [if_pos this]
      cases l with
      | nil => simp at hlen; omega
      | cons x l1 => rfl
    rw [hsp]
    simp only [hfull, if_true]
    refine ⟨?_, ?_, ?_, ?_⟩
    · unfold Queue.Inv
      simp only [List.length_set]
      rw [emod_wrap (a := q.front + 1) (by omega) (by omega),
        emod_wrap (a := q.rear + 1) (by omega) (by omega)]
      refine ⟨hdl, hc0, hc1, by omega, by omega, ?_, ?_, ?_, ?_⟩ <;> split <;> omega
    · unfold Queue.Ring
      simp only
      rw [emod_wrap (a := q.front + 1) (by omega) (by omega),
        emod_wrap (a := q.rear + 1) (by omega) (by omega)]
      split at hring <;> split <;> split <;>
        first
          | omega
          | (rw [emod_wrap (by omega) (by omega)]; split <;> omega)
    · simp; omega
    · intro i hi
      have hrf : q.rear = q.front := by split at hring <;> omega
      cases l with
      | nil => simp at hlen; omega
      | cons x l1 =>
        simp only [List.tail_cons, List.length_append, List.length_singleton,
          List.length_cons, List.length_nil, Nat.zero_add] at hi hlen ⊢
        have hslot : ∀ (d : List T) (s r : Int),
            Queue.slot (Queue.mk d q.capacity s ((q.front + 1) % q.capacity) r) i =
              q.slot (i + 1) := by
          intro d s r
          unfold Queue.slot
          simp only [Int.emod_add_emod]
          congr 2
          push_cast
          omega
        rw [hslot]
        have hse := q.slot_eq hinv0 (i + 1) (by push_cast; omega)
        by_cases hlast : i < l1.length
        · have hne : q.rear.toNat ≠ q.slot (i + 1) := by
            rw [hse]; push_cast; split <;> omega
          rw [List.getElem?_set_ne hne, List.getElem?_append_left hlast]
          have := hpt (i + 1) (by simp; omega)
          simpa using this
        · have hi2 : i = l1.length := by omega
          have heq : q.slot (i + 1) = q.rear.toNat := by
            rw [hse]; push_cast; split <;> omega
          rw [heq, List.getElem?_set_self (by omega), hi2]
          simp
  · -- there is room: nothing is dropped
    have hsp : specPush q.capacity l e = l ++ [e] := by
      unfold specPush
      have : ¬ ((l ++ [e]).length : Int) > q.capacity := by simp; omega
      rw [if_neg this]
    rw [hsp]
    simp only [hfull, if_false]
    refine ⟨?_, ?_, ?_, ?_⟩
    · unfold Queue.Inv
      simp only [List.length_set]
      rw [emod_wrap (a := q.rear + 1) (by omega) (by omega)]
      refine ⟨hdl, hc0, hc1, by omega, by omega, hf0, hf1, ?_, ?_⟩ <;> split <;> omega
    · unfold Queue.Ring
      simp only
      rw [emod_wrap (a := q.rear + 1) (by omega) (by omega),
        emod_wrap (a := q.front + (q.size + 1)) (by omega) (by omega)]
      split at hring <;> split <;> split <;> omega
    · simp; omega
    · intro i hi
      simp only [List.length_append, List.length_singleton] at hi
      have hslot : ∀ (d : List T) (s r : Int),
          Queue.slot (Queue.mk d q.capacity s q.front r) i = q.slot i := fun _ _ _ => rfl
      rw [hslot]
      have hse := q.slot_eq hinv0 i (by omega)
      by_cases hlast : i < l.length
      · have hne : q.rear.toNat ≠ q.slot i := by
          rw [hse]; split at hring <;> split <;> omega
        rw [List.getElem?_set_ne hne, List.getElem?_append_left hlast]
        exact hpt i hlast
      · have hi2 : i = l.length := by omega
        have heq : q.slot i = q.rear.toNat := by
          rw [hse]; split at hring <;> split <;> omega
        rw [heq, List.getElem?_set_self (by omega), hi2]
        simp

theorem Queue.Rep_pop {T : Type} (q : Queue T) (l : List T) (h : q.Rep l) (hs : 0 < q.size) :
    ∃ x l1 q1, l = x :: l1 ∧ q.Pop = .returns x q1 ∧ q1.capacity = q.capacity ∧
      q1.size = q.size - 1 ∧ q1.Rep l1 := by
  obtain ⟨hinv, hring, hlen, hpt⟩ := h
  have hinv0 := hinv
  obtain ⟨hdl, hc0, hc1, hs0, hs1, hf0, hf1, hr0, hr1⟩ := hinv
  unfold Queue.Ring at hring
  rw [emod_wrap (by omega) (by omega)] at hring
  obtain ⟨x, hx, hpop⟩ := q.Pop_of_inv hinv0 hs
  cases l with
  | nil => simp at hlen; omega
  | cons y l1 =>
    have hxy : x = y := by
      have h0 := hpt 0 (by simp)
      have hs0 : q.slot 0 = q.front.toNat := by
        rw [q.slot_eq hinv0 0 (by simp; omega)]; simp [hf1]
      rw [hs0, hx] at h0
      simpa using h0
    subst hxy
    simp only [List.length_cons] at hlen
    refine ⟨x, l1, _, rfl, hpop, rfl, rfl, ?_, ?_, ?_, ?_⟩
    · unfold Queue.Inv
      simp only
      rw [emod_wrap (a := q.front + 1) (by omega) (by omega)]
      refine ⟨hdl, hc0, hc1, by omega, by omega, ?_, ?_, hr0, hr1⟩ <;> split <;> omega
    · unfold Queue.Ring
      simp only
      rw [emod_wrap (a := q.front + 1) (by omega) (by omega)]
      split at hring <;> split <;>
        (rw [emod_wrap (by omega) (by omega)]; split <;> omega)
    · simp only; omega
    · intro i hi
      have hslot : ∀ (d : List T) (s r : Int),
          Queue.slot (Queue.mk d q.capacity s ((q.front + 1) % q.capacity) r) i =
            q.slot (i + 1) := by
        intro d s r
        unfold Queue.slot
        simp only [Int.emod_add_emod]
        congr 2
        push_cast
        omega
      rw [hslot]
      have := hpt (i + 1) (by simp; omega)
      simpa using this

theorem Queue.Rep_ctor {T : Type} [Inhabited T] (c : Int) (h0 : 0 < c) (h1 : c ≤ INT_MAX) :
    ∃ q0 : Queue T, Queue.ctor c = .ok q0 ∧ q0.capacity = c ∧ q0.Rep [] := by
  have hn : ¬ c < 0 := by omega
  refine ⟨Queue.mk (List.replicate c.toNat default) c 0 0 0,
    by simp only [Queue.ctor, hn, if_false], rfl, ?_, ?_, ?_, ?_⟩
  · unfold Queue.Inv
    simp only [List.length_replicate]
    omega
  · unfold Queue.Ring
    simp
  · simp
  · intro i hi
    simp at hi

/-- A guarded sequence of calls on a queue that holds `l` runs to its end and
does, call by call, what the list model does from `l`. -/
theorem Queue.Rep_run {T : Type} (ops : List (Op T)) :
    ∀ (q : Queue T) (l : List T), q.Rep l → q.popsGuarded ops = true →
      ∃ outs q1 l1, q.run ops = some (outs, q1) ∧
        specRun q.capacity l ops = some (outs, l1) ∧ q1.capacity = q.capacity ∧ q1.Rep l1 := by
  induction ops with
  | nil => intro q l h _; exact ⟨[], q, l, rfl, rfl, rfl, h⟩
  | cons op ops ih =>
    intro q l h hg
    cases op with
    | push e =>
      obtain ⟨q1, hp, hc, hrep⟩ := q.Rep_push l e h
      have hcall : q.call (.push e) = .returns none q1 := by simp [Queue.call, hp]
      simp only [Queue.popsGuarded, hcall, Outcome.state?, Bool.true_and] at hg
      obtain ⟨outs, q2, l2, hr, hsr, hc2, hrep2⟩ := ih q1 _ hrep hg
      refine ⟨.ok none :: outs, q2, l2, ?_, ?_, by omega, hrep2⟩
      · simp [Queue.run, hcall, hr]
      · rw [hc] at hsr
        simp [specRun, hsr]
    | pop =>
      have hs : 0 < q.size := by
        simp only [Queue.popsGuarded, Queue.Count, Bool.and_eq_true, decide_eq_true_eq] at hg
        exact hg.1
      obtain ⟨x, l1, q1, hl, hp, hc, _, hrep⟩ := q.Rep_pop l h hs
      have hcall : q.call .pop = .returns (some x) q1 := by simp [Queue.call, hp]
      simp only [Queue.popsGuarded, hcall, Outcome.state?, Bool.and_eq_true] at hg
      obtain ⟨outs, q2, l2, hr, hsr, hc2, hrep2⟩ := ih q1 _ hrep hg.2
      refine ⟨.ok (some x) :: outs, q2, l2, ?_, ?_, by omega, hrep2⟩
      · simp [Queue.run, hcall, hr]
      · rw [hc] at hsr
        simp [specRun, hl, hsr]
    | popWithTimeout ms =>
      by_cases hs : 0 < q.size
      · obtain ⟨x, l1, q1, hl, hp, hc, _, hrep⟩ := q.Rep_pop l h hs
        have hcall : q.call (.popWithTimeout ms) = .returns (some x) q1 := by
          simp [Queue.call, q.PopWithTimeout_eq_Pop ms hs, hp]
        simp only [Queue.popsGuarded, hcall, Outcome.state?, Bool.true_and] at hg
        obtain ⟨outs, q2, l2, hr, hsr, hc2, hrep2⟩ := ih q1 _ hrep hg
        refine ⟨.ok (some x) :: outs, q2, l2, ?_, ?_, by omega, hrep2⟩
        · simp [Queue.run, hcall, hr]
        · rw [hc] at hsr
          simp [specRun, hl, hsr]
      · have hcall : q.call (.popWithTimeout ms) = .throws Timeout q := by
          simp [Queue.call, q.PopWithTimeout_empty ms hs]
        simp only [Queue.popsGuarded, hcall, Outcome.state?, Bool.true_and] at hg
        have hl : l = [] := by
          have := h.2.2.1
          have h0 := h.1.2.2.2.1
          cases l with
          | nil => rfl
          | cons y l1 => simp at this; omega
        subst hl
        obtain ⟨outs, q2, l2, hr, hsr, hc2, hrep2⟩ := ih q [] h hg
        refine ⟨.error Timeout :: outs, q2, l2, ?_, ?_, hc2, hrep2⟩
        · simp [Queue.run, hcall, hr]
        · simp [specRun, hsr]

theorem Queue.run_append {T : Type} (a b : List (Op T)) :
    ∀ (q q1 q2 : Queue T) (o1 o2 : List (Except Exn (Option T))),
      q.run a = some (o1, q1) → q1.run b = some (o2, q2) →
        q.run (a ++ b) = some (o1 ++ o2, q2) := by
  induction a with
  | nil =>
    intro q q1 q2 o1 o2 h1 h2
    simp only [Queue.run, Option.some.injEq, Prod.mk.injEq] at h1
    obtain ⟨rfl, rfl⟩ := h1
    simpa using h2
  | cons op a ih =>
    intro q q1 q2 o1 o2 h1 h2
    simp only [List.cons_append, Queue.run] at h1 ⊢
    cases hc : q.call op with
    | returns x q3 =>
      rw [hc] at h1
      simp only at h1 ⊢
      cases hr : q3.run a with
      | none => rw [hr] at h1; simp at h1
      | some r =>
        obtain ⟨o3, q4⟩ := r
        rw [hr] at h1
        simp only [Option.some.injEq, Prod.mk.injEq] at h1
        obtain ⟨rfl, rfl⟩ := h1
        have h3 := ih q3 q4 q2 o3 o2 hr h2
        simp [h3]
    | throws e q3 =>
      rw [hc] at h1
      simp only at h1 ⊢
      cases hr : q3.run a with
      | none => rw [hr] at h1; simp at h1
      | some r =>
        obtain ⟨o3, q4⟩ := r
        rw [hr] at h1
        simp only [Option.some.injEq, Prod.mk.injEq] at h1
        obtain ⟨rfl, rfl⟩ := h1
        have h3 := ih q3 q4 q2 o3 o2 hr h2
        simp [h3]
    | undefined u => rw [hc] at h1; simp at h1
    | blocks => rw [hc] at h1; simp at h1

theorem Queue.run_pushes {T : Type} (es : List T) :
    ∀ (q : Queue T) (l : List T), q.Rep l → (l.length : Int) + es.length ≤ q.capacity →
      ∃ q1, q.run (es.map Op.push) = some (List.replicate es.length (.ok none), q1) ∧
        q1.capacity = q.capacity ∧ q1.Rep (l ++ es) := by
  induction es with
  | nil => intro q l h _; exact ⟨q, rfl, rfl, by simpa using h⟩
  | cons e es ih =>
    intro q l h hle
    simp only [List.length_cons] at hle
    push_cast at hle
    obtain ⟨q1, hp, hc, hrep⟩ := q.Rep_push l e h
    have hsp : specPush q.capacity l e = l ++ [e] := by
      unfold specPush
      have : ¬ ((l ++ [e]).length : Int) > q.capacity := by simp; omega
      rw [if_neg this]
    rw [hsp] at hrep
    obtain ⟨q2, hr, hc2, hrep2⟩ := ih q1 (l ++ [e]) hrep (by simp; omega)
    refine ⟨q2, ?_, by omega, by simpa using hrep2⟩
    have hcall : q.call (.push e) = .returns none q1 := by simp [Queue.call, hp]
    simp [Queue.run, hcall, hr, List.replicate_succ]

theorem Queue.run_pops {T : Type} (l : List T) :
    ∀ (q : Queue T), q.Rep l →
      ∃ q1, q.run (List.replicate l.length Op.pop) =
          some (l.map (fun x => .ok (some x)), q1) ∧
        q1.capacity = q.capacity ∧ q1.Rep [] := by
  induction l with
  | nil => intro q h; exact ⟨q, rfl, rfl, h⟩
  | cons y l ih =>
    intro q h
    have hs : 0 < q.size := by
      have := h.2.2.1
      simp at this; omega
    obtain ⟨x, l1, q1, hl, hp, hc, _, hrep⟩ := q.Rep_pop _ h hs
    simp only [List.cons.injEq] at hl
    obtain ⟨rfl, rfl⟩ := hl
    obtain ⟨q2, hr, hc2, hrep2⟩ := ih q1 hrep
    refine ⟨q2, ?_, by omega, hrep2⟩
    have hcall : q.call .pop = .returns (some y) q1 := by simp [Queue.call, hp]
    simp [Queue.run, hcall, hr, List.replicate_succ]

theorem Queue.popsGuarded_prefix {T : Type} (a b : List (Op T)) :
    ∀ q : Queue T, q.popsGuarded (a ++ b) = true → q.popsGuarded a = true := by
  induction a with
  | nil => intro q _; rfl
  | cons op a ih =>
    intro q h
    simp only [List.cons_append, Queue.popsGuarded, Bool.and_eq_true] at h ⊢
    refine ⟨h.1, ?_⟩
    cases hs : (q.call op).state? with
    | none => rfl
    | some q1 =>
      have h2 := h.2
      rw [hs] at h2
      exact ih q1 h2

/-- C1. For every capacity `c > 0` (an `int`) and every list of `N <= c`
elements, pushing the elements in order onto a freshly constructed queue of
capacity `c` and then calling `Pop` `N` times runs to the end, and the `N`
pops return exactly those elements in push order. -/
theorem fifo_pushes_then_pops {T : Type} [Inhabited T] (c : Int) (h0 : 0 < c)
    (h1 : c ≤ INT_MAX) (es : List T) (hN : (es.length : Int) ≤ c) :
    ∃ q0 q1 : Queue T, Queue.ctor c = .ok q0 ∧
      q0.run (es.map Op.push ++ List.replicate es.length Op.pop) =
        some (List.replicate es.length (.ok none) ++ es.map (fun x => .ok (some x)), q1) := by
  obtain ⟨q0, hctor, hc, hrep⟩ := Queue.Rep_ctor (T := T) c h0 h1
  obtain ⟨qN, hpush, hcN, hrepN⟩ := Queue.run_pushes es q0 [] hrep (by simp; omega)
  simp only [List.nil_append] at hrepN
  obtain ⟨q1, hpop, _, _⟩ := Queue.run_pops es qN hrepN
  exact ⟨q0, q1, hctor, Queue.run_append _ _ q0 qN q1 _ _ hpush hpop⟩

theorem fifo_pushes_then_pops_witness :
    (0 : Int) < 5 ∧ (5 : Int) ≤ INT_MAX ∧ (([1, 2, 3] : List Int).length : Int) ≤ 5 ∧
    ∃ q0 q1 : Queue Int, Queue.ctor 5 = .ok q0 ∧
      q0.run ([1, 2, 3].map Op.push ++ List.replicate [1, 2, 3].length Op.pop) =
        some (List.replicate [1, 2, 3].length (.ok none) ++
          [1, 2, 3].map (fun x => .ok (some x)), q1) :=
  ⟨by decide, by decide, by decide,
    fifo_pushes_then_pops 5 (by decide) (by decide) [1, 2, 3] (by decide)⟩

theorem except_bind_eq_ok {ε α β : Type} (x : Except ε α) (f : α → Except ε β) (b : β) :
    (x >>= f) = .ok b ↔ ∃ a, x = .ok a ∧ f a = .ok b := by
  cases x <;> simp [bind, Except.bind]

theorem except_pure_eq_ok {ε α : Type} (a b : α) :
    (pure a : Except ε α) = .ok b ↔ a = b := by
  simp [pure, Except.pure]

theorem Outcome.ofExcept_eq_returns {T α : Type} (m : Except UB (α × Queue T)) (a : α)
    (q : Queue T) : Outcome.ofExcept m = .returns a q ↔ m = .ok (a, q) := by
  rcases m with u | ⟨a1, q1⟩ <;> simp [Outcome.ofExcept]

theorem Outcome.ofExcept_ne_throws {T α : Type} (m : Except UB (α × Queue T)) (e : Exn)
    (q : Queue T) : Outcome.ofExcept m ≠ .throws e q := by
  rcases m with u | ⟨a1, q1⟩ <;> simp [Outcome.ofExcept]

theorem Queue.Push_capacity {T : Type} (q q1 : Queue T) (e : T) (u : Unit)
    (h : q.Push e = .returns u q1) : q1.capacity = q.capacity := by
  unfold Queue.Push at h
  rw [Outcome.ofExcept_eq_returns] at h
  simp only [except_bind_eq_ok, except_pure_eq_ok] at h
  obtain ⟨qa, hqa, d, _, r1, _, r, _, s, _, hfin⟩ := h
  have hcap : qa.capacity = q.capacity := by
    split at hqa
    · simp only [except_bind_eq_ok, except_pure_eq_ok] at hqa
      obtain ⟨f1, _, f, _, s1, _, hq⟩ := hqa
      rw [← hq]
    · rw [except_pure_eq_ok] at hqa
      rw [hqa]
  simp only [Prod.mk.injEq, true_and] at hfin
  rw [← hfin]
  exact hcap

theorem Queue.Push_ne_throws {T : Type} (q q1 : Queue T) (e : T) (x : Exn) :
    q.Push e ≠ .throws x q1 :=
  Outcome.ofExcept_ne_throws _ _ _

theorem Queue.Pop_capacity {T : Type} (q q1 : Queue T) (x : T)
    (h : q.Pop = .returns x q1) : q1.capacity = q.capacity := by
  unfold Queue.Pop at h
  split at h
  · cases h
  · rw [Outcome.ofExcept_eq_returns] at h
    simp only [except_bind_eq_ok, except_pure_eq_ok, Prod.mk.injEq] at h
    obtain ⟨el, _, f1, _, f, _, s, _, _, hq⟩ := h
    rw [← hq]

theorem Queue.Pop_ne_throws {T : Type} (q q1 : Queue T) (x : Exn) :
    q.Pop ≠ .throws x q1 := by
  unfold Queue.Pop
  split
  · simp
  · exact Outcome.ofExcept_ne_throws _ _ _

/-- Whenever a call gives control back, the capacity is what it was. -/
theorem Queue.call_capacity {T : Type} (q q1 : Queue T) (op : Op T)
    (h : (q.call op).state? = some q1) : q1.capacity = q.capacity := by
  cases op with
  | push e =>
    simp only [Queue.call] at h
    cases hp : q.Push e with
    | returns u q2 =>
      rw [hp] at h
      simp only [Outcome.state?, Option.some.injEq] at h
      rw [← h]; exact q.Push_capacity q2 e u hp
    | throws x q2 => exact absurd hp (q.Push_ne_throws q2 e x)
    | undefined u => rw [hp] at h; simp [Outcome.state?] at h
    | blocks => rw [hp] at h; simp [Outcome.state?] at h
  | pop =>
    simp only [Queue.call] at h
    cases hp : q.Pop with
    | returns x q2 =>
      rw [hp] at h
      simp only [Outcome.state?, Option.some.injEq] at h
      rw [← h]; exact q.Pop_capacity q2 x hp
    | throws x q2 => exact absurd hp (q.Pop_ne_throws q2 x)
    | undefined u => rw [hp] at h; simp [Outcome.state?] at h
    | blocks => rw [hp] at h; simp [Outcome.state?] at h
  | popWithTimeout ms =>
    simp only [Queue.call] at h
    by_cases hs : 0 < q.size
    · rw [q.PopWithTimeout_eq_Pop ms hs] at h
      cases hp : q.Pop with
      | returns x q2 =>
        rw [hp] at h
        simp only [Outcome.state?, Option.some.injEq] at h
        rw [← h]; exact q.Pop_capacity q2 x hp
      | throws x q2 => exact absurd hp (q.Pop_ne_throws q2 x)
      | undefined u => rw [hp] at h; simp [Outcome.state?] at h
      | blocks => rw [hp] at h; simp [Outcome.state?] at h
    · rw [q.PopWithTimeout_empty ms hs] at h
      simp only [Outcome.state?, Option.some.injEq] at h
      rw [← h]

theorem Queue.run_capacity {T : Type} (ops : List (Op T)) :
    ∀ (q q1 : Queue T) (outs : List (Except Exn (Option T))),
      q.run ops = some (outs, q1) → q1.capacity = q.capacity := by
  induction ops with
  | nil =>
    intro q q1 outs h
    simp only [Queue.run, Option.some.injEq, Prod.mk.injEq] at h
    rw [← h.2]
  | cons op ops ih =>
    intro q q1 outs h
    simp only [Queue.run] at h
    cases hc : q.call op with
    | returns x q3 =>
      rw [hc] at h
      simp only at h
      cases hr : q3.run ops with
      | none => rw [hr] at h; simp at h
      | some r =>
        obtain ⟨o3, q4⟩ := r
        rw [hr] at h
        simp only [Option.some.injEq, Prod.mk.injEq] at h
        rw [← h.2, ih q3 q4 o3 hr]
        exact q.call_capacity q3 op (by rw [hc]; rfl)
    | throws e q3 =>
      rw [hc] at h
      simp only at h
      cases hr : q3.run ops with
      | none => rw [hr] at h; simp at h
      | some r =>
        obtain ⟨o3, q4⟩ := r
        rw [hr] at h
        simp only [Option.some.injEq, Prod.mk.injEq] at h
        rw [← h.2, ih q3 q4 o3 hr]
        exact q.call_capacity q3 op (by rw [hc]; rfl)
    | undefined u => rw [hc] at h; simp at h
    | blocks => rw [hc] at h; simp at h

theorem Queue.Rep_of_live {T : Type} {q : Queue T} {l : List T} (hinv : q.Inv)
    (hring : q.Ring) (hlive : q.live = l.map some) : q.Rep l :=
  ⟨hinv, hring, (q.live_eq_iff l hinv.2.2.2.1).1 hlive⟩

/-- In a state that satisfies the structural invariants, whose `rear` is `size`
slots after `front` circularly, and that is full with live contents `x :: l`,
`Push(e)` returns, leaves `Count()` equal to the capacity and the live contents
equal to `l ++ [e]`, and the next `Pop` returns the first element of
`l ++ [e]`. -/
theorem Queue.push_full_of_ring {T : Type} (q : Queue T) (x : T) (l : List T) (e : T)
    (hinv : q.Inv) (hring : q.Ring) (hfull : q.Count = q.capacity)
    (hlive : q.live = (x :: l).map some) :
    ∃ q1, q.Push e = .returns () q1 ∧ q1.Count = q.capacity ∧
      q1.live = (l ++ [e]).map some ∧
      ∃ y q2, q1.Pop = .returns y q2 ∧ (l ++ [e]).head? = some y := by
  have hrep := Queue.Rep_of_live hinv hring hlive
  obtain ⟨q1, hp, hc, hrep1⟩ := q.Rep_push _ e hrep
  have hlen : ((x :: l).length : Int) = q.size := hrep.2.2.1
  have hsp : specPush q.capacity (x :: l) e = l ++ [e] := by
    unfold specPush
    have : ((x :: l ++ [e]).length : Int) > q.capacity := by
      unfold Queue.Count at hfull
      simp at hlen ⊢; omega
    rw [if_pos this]
    rfl
  rw [hsp] at hrep1
  have hlen1 : ((l ++ [e]).length : Int) = q1.size := hrep1.2.2.1
  have hcount : q1.Count = q.capacity := by
    unfold Queue.Count at hfull ⊢
    simp at hlen hlen1; omega
  have hpos : 0 < q1.size := by
    simp at hlen1; omega
  obtain ⟨y, l2, q2, hl2, hpop, _, _, _⟩ := q1.Rep_pop _ hrep1 hpos
  exact ⟨q1, hp, hcount, Queue.Rep_live hrep1, y, q2, hpop, by rw [hl2]; rfl⟩

/-- C3. For every capacity `c > 0` (an `int`), every sequence of `Push`, `Pop`
and `PopWithTimeout` calls on a freshly constructed queue in which each `Pop`
is issued with `Count() > 0`, and every prefix of it: the prefix runs to its
end, each call returns what the bounded drop-oldest list returns (a pop the
first element of the list), and the live contents read from `front` for `size`
slots circularly are that list. -/
theorem ring_refines_bounded_list {T : Type} [Inhabited T] (c : Int) (h0 : 0 < c)
    (h1 : c ≤ INT_MAX) :
    ∃ q0 : Queue T, Queue.ctor c = .ok q0 ∧
      ∀ ops : List (Op T), q0.popsGuarded ops = true →
        ∀ pre : List (Op T), pre <+: ops →
          ∃ outs q l, q0.run pre = some (outs, q) ∧ specRun c [] pre = some (outs, l) ∧
            q.live = l.map some := by
  obtain ⟨q0, hctor, hc, hrep⟩ := Queue.Rep_ctor (T := T) c h0 h1
  refine ⟨q0, hctor, ?_⟩
  rintro ops hg pre ⟨t, rfl⟩
  obtain ⟨outs, q, l, hrun, hspec, _, hrepq⟩ :=
    Queue.Rep_run pre q0 [] hrep (q0.popsGuarded_prefix pre t hg)
  rw [hc] at hspec
  exact ⟨outs, q, l, hrun, hspec, Queue.Rep_live hrepq⟩

theorem ring_refines_bounded_list_witness :
    (0 : Int) < 2 ∧ (2 : Int) ≤ INT_MAX ∧
    ∃ q0 : Queue Int, Queue.ctor 2 = .ok q0 ∧
      q0.popsGuarded [.push 1, .push 2, .push 3, .pop, .push 4, .pop, .pop] = true ∧
      ∃ outs q l, q0.run [.push 1, .push 2, .push 3, .pop, .push 4, .pop, .pop] =
          some (outs, q) ∧
        specRun 2 [] [.push 1, .push 2, .push 3, .pop, .push 4, .pop, .pop] =
          some (outs, l) ∧
        q.live = l.map some := by
  refine ⟨by decide, by decide, ?_⟩
  obtain ⟨q0, hc, h⟩ := ring_refines_bounded_list (T := Int) 2 (by decide) (by decide)
  have hq : q0 = ⟨[0, 0], 2, 0, 0, 0⟩ := by
    have h2 : Queue.ctor (T := Int) 2 = .ok ⟨[0, 0], 2, 0, 0, 0⟩ := rfl
    rw [h2] at hc
    injection hc with hc
    exact hc.symm
  subst hq
  have hg : (⟨[0, 0], 2, 0, 0, 0⟩ : Queue Int).popsGuarded
      [.push 1, .push 2, .push 3, .pop, .push 4, .pop, .pop] = true := by decide
  exact ⟨_, hc, hg, h _ hg _ (List.prefix_refl _)⟩

/-- C4. `PopWithTimeout` on an empty queue (`size = 0`) throws the `Timeout`
error for every duration and leaves the object in the state it was in: the
store, `capacity`, `size`, `front` and `rear` are unchanged. -/
theorem popWithTimeout_empty_times_out {T : Type} (q : Queue T) (ms : Int)
    (hempty : q.Count = 0) : q.PopWithTimeout ms = .throws Timeout q := by
  unfold Queue.Count at hempty
  exact q.PopWithTimeout_empty ms (by omega)

theorem popWithTimeout_empty_times_out_witness :
    (⟨[1, 2, 0, 0, 0], 5, 0, 2, 2⟩ : Queue Int).Count = 0 ∧
    (⟨[1, 2, 0, 0, 0], 5, 0, 2, 2⟩ : Queue Int).PopWithTimeout 100 =
      .throws Timeout ⟨[1, 2, 0, 0, 0], 5, 0, 2, 2⟩ :=
  ⟨by decide, popWithTimeout_empty_times_out ⟨[1, 2, 0, 0, 0], 5, 0, 2, 2⟩ 100 (by decide)⟩

/-- C5, refuted as stated.  Constructing with capacity 0 does not fail: the
constructor returns a queue with an empty store, capacity 0, count 0, head 0
and tail 0, on which `Count()` and `Size()` return 0 and a timed pop times
out. -/
theorem ctor_zero_returns_a_queue :
    Queue.ctor (T := Int) 0 = .ok ⟨[], 0, 0, 0, 0⟩ ∧
    (⟨[], 0, 0, 0, 0⟩ : Queue Int).Count = 0 ∧ (⟨[], 0, 0, 0, 0⟩ : Queue Int).Size = 0 ∧
    (⟨[], 0, 0, 0, 0⟩ : Queue Int).PopWithTimeout 100 = .throws Timeout ⟨[], 0, 0, 0, 0⟩ :=
  ⟨rfl, by decide, by decide, by decide⟩

/-- C5, amended.  Constructing a queue with a negative capacity fails with the
bad-array-length error of the array allocation and produces no queue;
constructing with capacity 0 returns an empty queue over a store of length 0;
neither raises an invalid-argument error. -/
theorem ctor_nonpositive {T : Type} [Inhabited T] (c : Int) (hc : c ≤ 0) :
    (c < 0 → Queue.ctor (T := T) c = .error .bad_array_new_length) ∧
    (c = 0 → Queue.ctor (T := T) c = .ok ⟨[], 0, 0, 0, 0⟩) ∧
    ∀ what : String, Queue.ctor (T := T) c ≠ .error (.invalid_argument what) := by
  refine ⟨fun h => by simp [Queue.ctor, h], fun h => by subst h; rfl, fun what => ?_⟩
  unfold Queue.ctor
  by_cases h : c < 0
  · simp [h]
  · simp [h]

theorem ctor_nonpositive_witness :
    (-3 : Int) ≤ 0 ∧
    ((-3 : Int) < 0 → Queue.ctor (T := Int) (-3) = .error .bad_array_new_length) ∧
    ((-3 : Int) = 0 → Queue.ctor (T := Int) (-3) = .ok ⟨[], 0, 0, 0, 0⟩) ∧
    ∀ what : String, Queue.ctor (T := Int) (-3) ≠ .error (.invalid_argument what) :=
  ⟨by decide, ctor_nonpositive (-3) (by decide)⟩

/-- C6. For every capacity `c > 0` (an `int`) and every list of `K <= c`
elements: a freshly constructed queue has `Count() = 0`; the `K` pushes run to
the end and `Count()` is then `K`; and when `K >= 1` one further `Pop` returns
and `Count()` is then `K - 1`. -/
theorem count_tracks_pushes_and_pop {T : Type} [Inhabited T] (c : Int) (h0 : 0 < c)
    (h1 : c ≤ INT_MAX) (es : List T) (hK : (es.length : Int) ≤ c) :
    ∃ q0 : Queue T, Queue.ctor c = .ok q0 ∧ q0.Count = 0 ∧
      ∃ outs qK, q0.run (es.map Op.push) = some (outs, qK) ∧ qK.Count = es.length ∧
        (1 ≤ es.length → ∃ x q, qK.Pop = .returns x q ∧ q.Count = (es.length : Int) - 1) := by
  obtain ⟨q0, hctor, hc, hrep⟩ := Queue.Rep_ctor (T := T) c h0 h1
  obtain ⟨qK, hpush, hcK, hrepK⟩ := Queue.run_pushes es q0 [] hrep (by simp; omega)
  simp only [List.nil_append] at hrepK
  have hcnt0 : q0.Count = 0 := by
    have := hrep.2.2.1
    unfold Queue.Count
    simp at this; omega
  have hcntK : qK.Count = es.length := hrepK.2.2.1.symm
  refine ⟨q0, hctor, hcnt0, _, qK, hpush, hcntK, fun hpos => ?_⟩
  unfold Queue.Count at hcntK
  obtain ⟨x, l1, q, _, hpop, _, hsz, _⟩ := qK.Rep_pop es hrepK (by omega)
  exact ⟨x, q, hpop, by unfold Queue.Count; omega⟩

theorem count_tracks_pushes_and_pop_witness :
    (0 : Int) < 5 ∧ (5 : Int) ≤ INT_MAX ∧ (([1, 2] : List Int).length : Int) ≤ 5 ∧
    ∃ q0 : Queue Int, Queue.ctor 5 = .ok q0 ∧ q0.Count = 0 ∧
      ∃ outs qK, q0.run (([1, 2] : List Int).map Op.push) = some (outs, qK) ∧
        qK.Count = ([1, 2] : List Int).length ∧
        (1 ≤ ([1, 2] : List Int).length →
          ∃ x q, qK.Pop = .returns x q ∧ q.Count = (([1, 2] : List Int).length : Int) - 1) :=
  ⟨by decide, by decide, by decide,
    count_tracks_pushes_and_pop 5 (by decide) (by decide) [1, 2] (by decide)⟩

/-- C7. For every capacity `c > 0` (an `int`), every sequence of `Push`, `Pop`
and `PopWithTimeout` calls on a freshly constructed queue in which each `Pop`
is issued with `Count() > 0`, and every prefix of it: the prefix runs to its
end and the state it ends in has `0 <= size <= capacity`,
`0 <= front < capacity`, `0 <= rear < capacity` and `capacity = c`; so
`Count()` is never negative and never exceeds `Size()`. -/
theorem structural_invariants_reachable {T : Type} [Inhabited T] (c : Int) (h0 : 0 < c)
    (h1 : c ≤ INT_MAX) :
    ∃ q0 : Queue T, Queue.ctor c = .ok q0 ∧
      ∀ ops : List (Op T), q0.popsGuarded ops = true →
        ∀ pre : List (Op T), pre <+: ops →
          ∃ outs q, q0.run pre = some (outs, q) ∧
            0 ≤ q.size ∧ q.size ≤ q.capacity ∧ 0 ≤ q.front ∧ q.front < q.capacity ∧
            0 ≤ q.rear ∧ q.rear < q.capacity ∧ q.capacity = c ∧
            0 ≤ q.Count ∧ q.Count ≤ q.Size := by
  obtain ⟨q0, hctor, hc, hrep⟩ := Queue.Rep_ctor (T := T) c h0 h1
  refine ⟨q0, hctor, ?_⟩
  rintro ops hg pre ⟨t, rfl⟩
  obtain ⟨outs, q, l, hrun, _, hcq, hrepq⟩ :=
    Queue.Rep_run pre q0 [] hrep (q0.popsGuarded_prefix pre t hg)
  obtain ⟨_, _, _, hs0, hs1, hf0, hf1, hr0, hr1⟩ := hrepq.1
  exact ⟨outs, q, hrun, hs0, hs1, hf0, hf1, hr0, hr1, by omega, hs0, hs1⟩

theorem structural_invariants_reachable_witness :
    (0 : Int) < 2 ∧ (2 : Int) ≤ INT_MAX ∧
    ∃ q0 : Queue Int, Queue.ctor 2 = .ok q0 ∧
      q0.popsGuarded [.push 1, .push 2, .push 3, .pop, .popWithTimeout 10,
        .popWithTimeout 10, .push 4, .pop] = true ∧
      ∃ outs q, q0.run [.push 1, .push 2, .push 3, .pop, .popWithTimeout 10,
          .popWithTimeout 10, .push 4, .pop] = some (outs, q) ∧
        0 ≤ q.size ∧ q.size ≤ q.capacity ∧ 0 ≤ q.front ∧ q.front < q.capacity ∧
        0 ≤ q.rear ∧ q.rear < q.capacity ∧ q.capacity = 2 ∧
        0 ≤ q.Count ∧ q.Count ≤ q.Size := by
  refine ⟨by decide, by decide, ?_⟩
  obtain ⟨q0, hc, h⟩ := structural_invariants_reachable (T := Int) 2 (by decide) (by decide)
  have hq : q0 = ⟨[0, 0], 2, 0, 0, 0⟩ := by
    have h2 : Queue.ctor (T := Int) 2 = .ok ⟨[0, 0], 2, 0, 0, 0⟩ := rfl
    rw [h2] at hc
    injection hc with hc
    exact hc.symm
  subst hq
  have hg : (⟨[0, 0], 2, 0, 0, 0⟩ : Queue Int).popsGuarded
      [.push 1, .push 2, .push 3, .pop, .popWithTimeout 10, .popWithTimeout 10,
        .push 4, .pop] = true := by decide
  exact ⟨_, hc, hg, h _ hg _ (List.prefix_refl _)⟩

/-- C8. `Size()` on a constructed queue returns the value passed to the
constructor, and it still returns that value after any sequence of `Push`,
`Pop` and `PopWithTimeout` calls (returning or timing out) that runs to its
end. -/
theorem size_is_constructed_capacity {T : Type} [Inhabited T] (c : Int) (q0 : Queue T)
    (hctor : Queue.ctor c = .ok q0) :
    q0.Size = c ∧
      ∀ (ops : List (Op T)) (outs : List (Except Exn (Option T))) (q : Queue T),
        q0.run ops = some (outs, q) → q.Size = c := by
  have hsz : q0.Size = c := by
    unfold Queue.ctor at hctor
    by_cases h : c < 0
    · simp [h] at hctor
    · simp only [h, if_false, Except.ok.injEq] at hctor
      rw [← hctor]; rfl
  refine ⟨hsz, fun ops outs q hrun => ?_⟩
  unfold Queue.Size at hsz ⊢
  rw [Queue.run_capacity ops q0 q outs hrun, hsz]

theorem size_is_constructed_capacity_witness :
    Queue.ctor (T := Int) 5 = .ok ⟨[0, 0, 0, 0, 0], 5, 0, 0, 0⟩ ∧
    (⟨[0, 0, 0, 0, 0], 5, 0, 0, 0⟩ : Queue Int).Size = 5 ∧
    (⟨[0, 0, 0, 0, 0], 5, 0, 0, 0⟩ : Queue Int).run [.push 1, .pop, .popWithTimeout 100] =
      some ([.ok none, .ok (some 1), .error Timeout], ⟨[1, 0, 0, 0, 0], 5, 0, 1, 1⟩) ∧
    (⟨[1, 0, 0, 0, 0], 5, 0, 1, 1⟩ : Queue Int).Size = 5 :=
  ⟨rfl, (size_is_constructed_capacity 5 ⟨[0, 0, 0, 0, 0], 5, 0, 0, 0⟩ (by rfl)).1, rfl,
    (size_is_constructed_capacity 5 ⟨[0, 0, 0, 0, 0], 5, 0, 0, 0⟩ (by rfl)).2
      [.push 1, .pop, .popWithTimeout 100] _ _ rfl⟩

/-- C9, refuted as stated.  On the queue the constructor returns for capacity
0, `Push` takes the branch `size == capacity` and computes `(front + 1) % 0`:
a division by zero. -/
theorem push_on_capacity_zero_divides_by_zero :
    Queue.ctor (T := Int) 0 = .ok ⟨[], 0, 0, 0, 0⟩ ∧
    (⟨[], 0, 0, 0, 0⟩ : Queue Int).Push 1 = .undefined .divisionByZero :=
  ⟨rfl, by decide⟩

/-- C9, amended.  For every queue state that satisfies the structural
invariants (in particular `capacity > 0`) and every element, `Push` returns:
the divisor `capacity` is not zero, the write index `rear` is inside the store
of length `capacity`, and no step overflows. -/
theorem push_returns {T : Type} (q : Queue T) (e : T) (hinv : q.Inv) :
    q.capacity ≠ 0 ∧ 0 ≤ q.rear ∧ q.rear.toNat < q.data.length ∧
      (q.data.length : Int) = q.capacity ∧ ∃ q1, q.Push e = .returns () q1 := by
  obtain ⟨hdl, hc0, _, _, _, _, _, hr0, hr1⟩ := id hinv
  exact ⟨by omega, hr0, by omega, hdl, _, q.Push_of_inv e hinv⟩

theorem push_returns_witness :
    (⟨[1, 2], 2, 2, 0, 0⟩ : Queue Int).Inv ∧
    (⟨[1, 2], 2, 2, 0, 0⟩ : Queue Int).capacity ≠ 0 ∧
    0 ≤ (⟨[1, 2], 2, 2, 0, 0⟩ : Queue Int).rear ∧
    (⟨[1, 2], 2, 2, 0, 0⟩ : Queue Int).rear.toNat <
      (⟨[1, 2], 2, 2, 0, 0⟩ : Queue Int).data.length ∧
    ((⟨[1, 2], 2, 2, 0, 0⟩ : Queue Int).data.length : Int) =
      (⟨[1, 2], 2, 2, 0, 0⟩ : Queue Int).capacity ∧
    ∃ q1, (⟨[1, 2], 2, 2, 0, 0⟩ : Queue Int).Push 3 = .returns () q1 :=
  ⟨by decide, push_returns ⟨[1, 2], 2, 2, 0, 0⟩ 3 (by decide)⟩

/-- C10. For every queue state with `size > 0` and every duration (positive,
zero or negative), `PopWithTimeout` has the outcome of `Pop` from that state:
the same element and the same resulting store, `capacity`, `size`, `front` and
`rear`; it does not throw; and in a state that satisfies the structural
invariants both return the element at `front`. -/
theorem popWithTimeout_as_pop {T : Type} (q : Queue T) (ms : Int) (hs : 0 < q.Count) :
    q.PopWithTimeout ms = q.Pop ∧
      (∀ (e : Exn) (q1 : Queue T), q.PopWithTimeout ms ≠ .throws e q1) ∧
      (q.Inv → ∃ x q1, q.data[q.front.toNat]? = some x ∧
        q.PopWithTimeout ms = .returns x q1 ∧ q.Pop = .returns x q1) := by
  have heq := q.PopWithTimeout_eq_Pop ms hs
  refine ⟨heq, fun e q1 => ?_, fun hinv => ?_⟩
  · rw [heq]; exact q.Pop_ne_throws q1 e
  · obtain ⟨x, hx, hpop⟩ := q.Pop_of_inv hinv hs
    exact ⟨x, _, hx, by rw [heq]; exact hpop, hpop⟩

theorem popWithTimeout_as_pop_witness :
    0 < (⟨[7, 8, 0], 3, 2, 0, 2⟩ : Queue Int).Count ∧
    (⟨[7, 8, 0], 3, 2, 0, 2⟩ : Queue Int).PopWithTimeout (-5) =
      (⟨[7, 8, 0], 3, 2, 0, 2⟩ : Queue Int).Pop ∧
    (∀ (e : Exn) (q1 : Queue Int),
      (⟨[7, 8, 0], 3, 2, 0, 2⟩ : Queue Int).PopWithTimeout (-5) ≠ .throws e q1) ∧
    ((⟨[7, 8, 0], 3, 2, 0, 2⟩ : Queue Int).Inv → ∃ x q1,
      (⟨[7, 8, 0], 3, 2, 0, 2⟩ : Queue Int).data[
        (⟨[7, 8, 0], 3, 2, 0, 2⟩ : Queue Int).front.toNat]? = some x ∧
      (⟨[7, 8, 0], 3, 2, 0, 2⟩ : Queue Int).PopWithTimeout (-5) = .returns x q1 ∧
      (⟨[7, 8, 0], 3, 2, 0, 2⟩ : Queue Int).Pop = .returns x q1) :=
  ⟨by decide, popWithTimeout_as_pop ⟨[7, 8, 0], 3, 2, 0, 2⟩ (-5) (by decide)⟩

/-- C11. `PopWithTimeout(0)` tries once: in a state with `Count() = 0` it throws
the `Timeout` error and leaves the object as it was; in a state that satisfies
the structural invariants with `Count() > 0` it returns the element at `front`
and dequeues it (`front` advances by one modulo `capacity`, `size` decreases by
one, the store and `rear` stay).  Which of the two happens depends on `size`
alone. -/
theorem popWithTimeout_zero_tries_once {T : Type} (q : Queue T) :
    (q.Count = 0 → q.PopWithTimeout 0 = .throws Timeout q) ∧
    (q.Inv → 0 < q.Count → ∃ x, q.data[q.front.toNat]? = some x ∧
      q.PopWithTimeout 0 = .returns x
        { data := q.data, capacity := q.capacity, size := q.size - 1,
          front := (q.front + 1) % q.capacity, rear := q.rear }) ∧
    ((∃ e q1, q.PopWithTimeout 0 = .throws e q1) ↔ ¬ 0 < q.Count) := by
  unfold Queue.Count
  refine ⟨fun h0 => q.PopWithTimeout_empty 0 (by omega), fun hinv hs => ?_, ?_⟩
  · obtain ⟨x, hx, hpop⟩ := q.Pop_of_inv hinv hs
    exact ⟨x, hx, by rw [q.PopWithTimeout_eq_Pop 0 hs]; exact hpop⟩
  · constructor
    · rintro ⟨e, q1, h⟩ hs
      rw [q.PopWithTimeout_eq_Pop 0 hs] at h
      exact q.Pop_ne_throws q1 e h
    · intro hs
      exact ⟨Timeout, q, q.PopWithTimeout_empty 0 hs⟩

theorem popWithTimeout_zero_tries_once_witness :
    (⟨[7, 8, 0], 3, 2, 0, 2⟩ : Queue Int).PopWithTimeout 0 =
      .returns 7 ⟨[7, 8, 0], 3, 1, 1, 2⟩ ∧
    (⟨[7, 8, 0], 3, 0, 2, 2⟩ : Queue Int).PopWithTimeout 0 =
      .throws Timeout ⟨[7, 8, 0], 3, 0, 2, 2⟩ := by
  refine ⟨?_, (popWithTimeout_zero_tries_once ⟨[7, 8, 0], 3, 0, 2, 2⟩).1 (by decide)⟩
  obtain ⟨x, hx, h⟩ :=
    (popWithTimeout_zero_tries_once (⟨[7, 8, 0], 3, 2, 0, 2⟩ : Queue Int)).2.1
      (by decide) (by decide)
  have h7 : x = 7 := by
    have h2 : (⟨[7, 8, 0], 3, 2, 0, 2⟩ : Queue Int).data[
        (⟨[7, 8, 0], 3, 2, 0, 2⟩ : Queue Int).front.toNat]? = some 7 := by decide
    rw [h2] at hx
    injection hx with hx
    exact hx.symm
  subst h7
  rw [h]
  decide

/-- C12. Constructing with a positive capacity `c` returns an empty queue:
`Count()` is 0, `front` is 0, `rear` is 0, the store has `c` slots, `capacity`
is `c`, and there are no live contents. -/
theorem ctor_positive_is_empty {T : Type} [Inhabited T] (c : Int) (h0 : 0 < c) :
    ∃ q0 : Queue T, Queue.ctor c = .ok q0 ∧ q0.Count = 0 ∧ q0.front = 0 ∧ q0.rear = 0 ∧
      (q0.data.length : Int) = c ∧ q0.capacity = c ∧ q0.Size = c ∧ q0.live = [] := by
  have hn : ¬ c < 0 := by omega
  refine ⟨Queue.mk (List.replicate c.toNat default) c 0 0 0,
    by simp only [Queue.ctor, hn, if_false], rfl, rfl, rfl, ?_, rfl, rfl, rfl⟩
  simp only [List.length_replicate]
  omega

theorem ctor_positive_is_empty_witness :
    (0 : Int) < 5 ∧
    ∃ q0 : Queue Int, Queue.ctor 5 = .ok q0 ∧ q0.Count = 0 ∧ q0.front = 0 ∧ q0.rear = 0 ∧
      (q0.data.length : Int) = 5 ∧ q0.capacity = 5 ∧ q0.Size = 5 ∧ q0.live = [] :=
  ⟨by decide, ctor_positive_is_empty 5 (by decide)⟩

/-- C14. For every state that satisfies the structural invariants with
`Count() > 0`, `Pop` returns the element stored at index `front`, sets `front`
to `(front + 1) % capacity`, decreases `size` by exactly one, and leaves
`rear`, `capacity` and the whole store unchanged. -/
theorem pop_step {T : Type} (q : Queue T) (hinv : q.Inv) (hs : 0 < q.Count) :
    ∃ x q1, q.data[q.front.toNat]? = some x ∧ q.Pop = .returns x q1 ∧
      q1.front = (q.front + 1) % q.capacity ∧ q1.size = q.size - 1 ∧
      q1.rear = q.rear ∧ q1.capacity = q.capacity ∧ q1.data = q.data := by
  obtain ⟨x, hx, hpop⟩ := q.Pop_of_inv hinv hs
  exact ⟨x, _, hx, hpop, rfl, rfl, rfl, rfl, rfl⟩

theorem pop_step_witness :
    (⟨[7, 8, 9], 3, 2, 2, 1⟩ : Queue Int).Inv ∧
    0 < (⟨[7, 8, 9], 3, 2, 2, 1⟩ : Queue Int).Count ∧
    ∃ x q1, (⟨[7, 8, 9], 3, 2, 2, 1⟩ : Queue Int).data[
        (⟨[7, 8, 9], 3, 2, 2, 1⟩ : Queue Int).front.toNat]? = some x ∧
      (⟨[7, 8, 9], 3, 2, 2, 1⟩ : Queue Int).Pop = .returns x q1 ∧
      q1.front = ((⟨[7, 8, 9], 3, 2, 2, 1⟩ : Queue Int).front + 1) %
        (⟨[7, 8, 9], 3, 2, 2, 1⟩ : Queue Int).capacity ∧
      q1.size = (⟨[7, 8, 9], 3, 2, 2, 1⟩ : Queue Int).size - 1 ∧
      q1.rear = (⟨[7, 8, 9], 3, 2, 2, 1⟩ : Queue Int).rear ∧
      q1.capacity = (⟨[7, 8, 9], 3, 2, 2, 1⟩ : Queue Int).capacity ∧
      q1.data = (⟨[7, 8, 9], 3, 2, 2, 1⟩ : Queue Int).data :=
  ⟨by decide, by decide, pop_step ⟨[7, 8, 9], 3, 2, 2, 1⟩ (by decide) (by decide)⟩

theorem list_eq_map_some {T : Type} (xs : List (Option T)) :
    (∀ o ∈ xs, o ≠ none) → ∃ l : List T, xs = l.map some := by
  induction xs with
  | nil => intro _; exact ⟨[], rfl⟩
  | cons o xs ih =>
    intro h
    obtain ⟨l, hl⟩ := ih (fun o1 ho1 => h o1 (List.mem_cons_of_mem _ ho1))
    cases o with
    | none => exact absurd rfl (h none (List.mem_cons_self _ _))
    | some x => exact ⟨x :: l, by rw [hl]; rfl⟩

theorem Queue.slot_lt {T : Type} (q : Queue T) (h : q.Inv) (i : Nat) :
    q.slot i < q.data.length := by
  obtain ⟨hlen, hc0, _⟩ := h
  unfold Queue.slot
  have h1 := Int.emod_nonneg (q.front + (i : Int)) (show q.capacity ≠ 0 by omega)
  have h2 := Int.emod_lt_of_pos (q.front + (i : Int)) hc0
  omega

/-- In a state that satisfies the structural invariants every live slot is a
slot of the store. -/
theorem Queue.live_eq_map_some {T : Type} (q : Queue T) (h : q.Inv) :
    ∃ l : List T, q.live = l.map some := by
  apply list_eq_map_some
  intro o ho
  unfold Queue.live at ho
  rw [List.mem_map] at ho
  obtain ⟨i, _, rfl⟩ := ho
  rw [List.getElem?_eq_getElem (q.slot_lt h i)]
  simp

/-- In a state that satisfies the structural invariants with
`Count() < capacity`, `Push(e)` returns, writes `e` at index `rear`, sets
`rear` to `(rear + 1) % capacity`, increases `size` by exactly one, and leaves
`front`, `capacity` and every other slot of the store unchanged.  When moreover
`rear` is `size` slots after `front` circularly, the slot written is not live,
and the live contents afterwards are the live contents before followed by
`e`. -/
theorem Queue.push_step_of_inv {T : Type} (q : Queue T) (e : T) (hinv : q.Inv)
    (hroom : q.Count < q.capacity) :
    ∃ q1, q.Push e = .returns () q1 ∧
      q1.data[q.rear.toNat]? = some e ∧
      (∀ j : Nat, j ≠ q.rear.toNat → q1.data[j]? = q.data[j]?) ∧
      q1.data.length = q.data.length ∧
      q1.rear = (q.rear + 1) % q.capacity ∧ q1.size = q.size + 1 ∧
      q1.front = q.front ∧ q1.capacity = q.capacity ∧
      (q.Ring →
        (∀ i : Nat, (i : Int) < q.size → q.slot i ≠ q.rear.toNat) ∧
        q1.live = q.live ++ [some e]) := by
  unfold Queue.Count at hroom
  have hne : q.size ≠ q.capacity := by omega
  have hpush := q.Push_of_inv e hinv
  simp only [hne, if_false] at hpush
  obtain ⟨hdl, hc0, hc1, hs0, hs1, hf0, hf1, hr0, hr1⟩ := id hinv
  refine ⟨_, hpush, ?_, ?_, ?_, rfl, rfl, rfl, rfl, ?_⟩
  · exact List.getElem?_set_self (by omega)
  · intro j hj
    exact List.getElem?_set_ne (Ne.symm hj)
  · simp
  · intro hring
    constructor
    · intro i hi
      have hse := q.slot_eq hinv i (by omega)
      unfold Queue.Ring at hring
      rw [emod_wrap (by omega) (by omega)] at hring
      rw [hse]
      split at hring <;> split <;> omega
    · obtain ⟨l, hl⟩ := q.live_eq_map_some hinv
      have hrep := Queue.Rep_of_live hinv hring hl
      obtain ⟨q1, hp, _, hrep1⟩ := q.Rep_push l e hrep
      have hsp : specPush q.capacity l e = l ++ [e] := by
        unfold specPush
        have hlen : (l.length : Int) = q.size := hrep.2.2.1
        have : ¬ ((l ++ [e]).length : Int) > q.capacity := by simp; omega
        rw [if_neg this]
      rw [hsp] at hrep1
      rw [hpush] at hp
      injection hp with _ hq
      rw [hq, Queue.Rep_live hrep1, hl]
      simp

/-- A sequence of calls that runs to its end on a queue holding a list had
every `Pop` issued with an element in the queue. -/
theorem Queue.Rep_run_some {T : Type} (ops : List (Op T)) :
    ∀ (q : Queue T) (l : List T), q.Rep l →
      ∀ (outs : List (Except Exn (Option T))) (q1 : Queue T),
        q.run ops = some (outs, q1) → q.popsGuarded ops = true := by
  induction ops with
  | nil => intro q l _ outs q1 _; rfl
  | cons op ops ih =>
    intro q l h outs q1 hrun
    have step : ∀ (a : Option T) (q2 : Queue T) (l2 : List T),
        q.call op = .returns a q2 → q2.Rep l2 →
          (match (q.call op).state? with
            | some q3 => Queue.popsGuarded q3 ops
            | none => true) = true := by
      intro a q2 l2 hcall hrep2
      simp only [Queue.run, hcall] at hrun
      cases hr : q2.run ops with
      | none => rw [hr] at hrun; simp at hrun
      | some r =>
        simp only [hcall, Outcome.state?]
        exact ih q2 l2 hrep2 r.1 r.2 hr
    cases op with
    | push e =>
      obtain ⟨q2, hp, _, hrep2⟩ := q.Rep_push l e h
      have hcall : q.call (.push e) = .returns none q2 := by simp [Queue.call, hp]
      simp only [Queue.popsGuarded, Bool.true_and]
      exact step none q2 _ hcall hrep2
    | pop =>
      have hs : 0 < q.size := by
        by_contra hn
        have hb : q.call .pop = .blocks := by simp [Queue.call, Queue.Pop, hn]
        simp [Queue.run, hb] at hrun
      obtain ⟨x, l1, q2, _, hp, _, _, hrep2⟩ := q.Rep_pop l h hs
      have hcall : q.call .pop = .returns (some x) q2 := by simp [Queue.call, hp]
      simp only [Queue.popsGuarded, Queue.Count, Bool.and_eq_true, decide_eq_true_eq]
      exact ⟨hs, step (some x) q2 _ hcall hrep2⟩
    | popWithTimeout ms =>
      simp only [Queue.popsGuarded, Bool.true_and]
      by_cases hs : 0 < q.size
      · obtain ⟨x, l1, q2, _, hp, _, _, hrep2⟩ := q.Rep_pop l h hs
        have hcall : q.call (.popWithTimeout ms) = .returns (some x) q2 := by
          simp [Queue.call, q.PopWithTimeout_eq_Pop ms hs, hp]
        exact step (some x) q2 _ hcall hrep2
      · have hcall : q.call (.popWithTimeout ms) = .throws Timeout q := by
          simp [Queue.call, q.PopWithTimeout_empty ms hs]
        simp only [Queue.run, hcall] at hrun
        cases hr : q.run ops with
        | none => rw [hr] at hrun; simp at hrun
        | some r =>
          simp only [hcall, Outcome.state?]
          exact ih q l h r.1 r.2 hr

/-- Every state reached from a queue that holds a list holds a list. -/
theorem Queue.Rep_reached {T : Type} (ops : List (Op T)) (q : Queue T) (l : List T)
    (h : q.Rep l) (outs : List (Except Exn (Option T))) (q1 : Queue T)
    (hrun : q.run ops = some (outs, q1)) : ∃ l1, q1.Rep l1 := by
  obtain ⟨outs2, q2, l2, hrun2, _, _, hrep2⟩ :=
    Queue.Rep_run ops q l h (Queue.Rep_run_some ops q l h outs q1 hrun)
  rw [hrun] at hrun2
  simp only [Option.some.injEq, Prod.mk.injEq] at hrun2
  rw [hrun2.2]
  exact ⟨l2, hrep2⟩

/-- On the queue of capacity 0 only timed pops give control back, and they
leave it as it is. -/
theorem Queue.run_capacity_zero {T : Type} (ops : List (Op T)) :
    ∀ (outs : List (Except Exn (Option T))) (q : Queue T),
      (⟨[], 0, 0, 0, 0⟩ : Queue T).run ops = some (outs, q) → q = ⟨[], 0, 0, 0, 0⟩ := by
  induction ops with
  | nil =>
    intro outs q h
    simp only [Queue.run, Option.some.injEq, Prod.mk.injEq] at h
    exact h.2.symm
  | cons op ops ih =>
    intro outs q h
    cases op with
    | push e =>
      have hc : (⟨[], 0, 0, 0, 0⟩ : Queue T).call (.push e) = .undefined .divisionByZero := rfl
      simp [Queue.run, hc] at h
    | pop =>
      have hc : (⟨[], 0, 0, 0, 0⟩ : Queue T).call .pop = .blocks := rfl
      simp [Queue.run, hc] at h
    | popWithTimeout ms =>
      have hc : (⟨[], 0, 0, 0, 0⟩ : Queue T).call (.popWithTimeout ms) =
          .throws Timeout ⟨[], 0, 0, 0, 0⟩ := rfl
      simp only [Queue.run, hc] at h
      cases hr : (⟨[], 0, 0, 0, 0⟩ : Queue T).run ops with
      | none => rw [hr] at h; simp at h
      | some r =>
        rw [hr] at h
        simp only [Option.some.injEq, Prod.mk.injEq] at h
        rw [← h.2]
        exact ih r.1 r.2 hr

/-- C16. `Pop` is enabled only with an element in the queue: in every state
with `Count() <= 0` it blocks.  And for every queue the constructor returns
(capacity an `int`) and every sequence of `Push`, `Pop` and `PopWithTimeout`
calls that runs to its end, the state reached has `Count() >= 0`, and a `Pop`
that returns from it was issued with `Count() > 0`, read the slot at `front`,
which is the first live slot, returned the oldest live element, and left
`Count() >= 0`. -/
theorem pop_only_when_nonempty {T : Type} [Inhabited T] (c : Int) (h1 : c ≤ INT_MAX)
    (q0 : Queue T) (hctor : Queue.ctor c = .ok q0) :
    (∀ q : Queue T, ¬ 0 < q.Count → q.Pop = .blocks) ∧
    ∀ (ops : List (Op T)) (outs : List (Except Exn (Option T))) (q : Queue T),
      q0.run ops = some (outs, q) →
        0 ≤ q.Count ∧
        ∀ (x : T) (q1 : Queue T), q.Pop = .returns x q1 →
          0 < q.Count ∧ q.slot 0 = q.front.toNat ∧ q.live.head? = some (some x) ∧
            0 ≤ q1.Count := by
  unfold Queue.Count
  refine ⟨fun q hq => by simp [Queue.Pop, hq], fun ops outs q hrun => ?_⟩
  have hq0 : q0 = Queue.mk (List.replicate c.toNat default) c 0 0 0 ∧ ¬ c < 0 := by
    unfold Queue.ctor at hctor
    by_cases h : c < 0
    · simp [h] at hctor
    · simp only [h, if_false, Except.ok.injEq] at hctor
      exact ⟨hctor.symm, h⟩
  by_cases hc : c = 0
  · -- capacity 0: the state never changes and `Pop` blocks
    have hz : q0 = ⟨[], 0, 0, 0, 0⟩ := by rw [hq0.1, hc]; rfl
    rw [hz] at hrun
    rw [Queue.run_capacity_zero ops outs q hrun]
    refine ⟨by simp, fun x q1 hpop => ?_⟩
    have hb : (⟨[], 0, 0, 0, 0⟩ : Queue T).Pop = .blocks := rfl
    rw [hb] at hpop
    cases hpop
  · obtain ⟨q0a, hctor2, _, hrep0⟩ := Queue.Rep_ctor (T := T) c (by omega) h1
    rw [hctor] at hctor2
    injection hctor2 with hq
    rw [← hq] at hrep0
    obtain ⟨l, hrep⟩ := Queue.Rep_reached ops q0 [] hrep0 outs q hrun
    have hs0 : 0 ≤ q.size := hrep.1.2.2.2.1
    refine ⟨hs0, fun x q1 hpop => ?_⟩
    have hs : 0 < q.size := by
      by_contra hn
      have hb : q.Pop = .blocks := by simp [Queue.Pop, hn]
      rw [hb] at hpop
      cases hpop
    obtain ⟨y, l1, q2, hl, hp, _, hsz, _⟩ := q.Rep_pop l hrep hs
    rw [hpop] at hp
    injection hp with hxy hq12
    refine ⟨hs, ?_, ?_, by rw [hq12, hsz]; omega⟩
    · rw [q.slot_eq hrep.1 0 (by have := hrep.1.2.1; simp; omega)]
      have := hrep.1.2.2.2.2.2.2.1
      simp [this]
    · rw [Queue.Rep_live hrep, hl, hxy]
      rfl

theorem pop_only_when_nonempty_witness :
    (2 : Int) ≤ INT_MAX ∧ Queue.ctor (T := Int) 2 = .ok ⟨[0, 0], 2, 0, 0, 0⟩ ∧
    (⟨[0, 0], 2, 0, 0, 0⟩ : Queue Int).run [.push 1, .push 2, .push 3, .pop] =
      some ([.ok none, .ok none, .ok none, .ok (some 2)], ⟨[3, 2], 2, 1, 0, 1⟩) ∧
    (⟨[3, 2], 2, 1, 0, 1⟩ : Queue Int).Pop = .returns 3 ⟨[3, 2], 2, 0, 1, 1⟩ ∧
    0 < (⟨[3, 2], 2, 1, 0, 1⟩ : Queue Int).Count ∧
    (⟨[3, 2], 2, 1, 0, 1⟩ : Queue Int).slot 0 = (⟨[3, 2], 2, 1, 0, 1⟩ : Queue Int).front.toNat ∧
    (⟨[3, 2], 2, 1, 0, 1⟩ : Queue Int).live.head? = some (some 3) ∧
    0 ≤ (⟨[3, 2], 2, 0, 1, 1⟩ : Queue Int).Count :=
  ⟨by decide, rfl, rfl, by decide,
    ((pop_only_when_nonempty 2 (by decide) ⟨[0, 0], 2, 0, 0, 0⟩ (by rfl)).2
      [.push 1, .push 2, .push 3, .pop] _ _ rfl).2 3 ⟨[3, 2], 2, 0, 1, 1⟩ (by decide)⟩

/-- C17. For every capacity `c > 0` (an `int`), every sequence of `Push`, `Pop`
and `PopWithTimeout` calls on a freshly constructed queue in which each `Pop`
is issued with `Count() > 0`, and every prefix of it: the prefix runs to its
end, and in the state reached `rear = (front + size) % capacity`; `front` and
`rear` are equal exactly when the queue is empty or full; and when the queue
is not full, the slot at `rear`, which the next `Push` writes, is not a live
slot. -/
theorem tail_is_head_plus_count {T : Type} [Inhabited T] (c : Int) (h0 : 0 < c)
    (h1 : c ≤ INT_MAX) :
    ∃ q0 : Queue T, Queue.ctor c = .ok q0 ∧
      ∀ ops : List (Op T), q0.popsGuarded ops = true →
        ∀ pre : List (Op T), pre <+: ops →
          ∃ outs q, q0.run pre = some (outs, q) ∧
            q.rear = (q.front + q.size) % q.capacity ∧
            (q.front = q.rear ↔ q.Count = 0 ∨ q.Count = q.capacity) ∧
            (q.Count < q.capacity →
              ∀ i : Nat, (i : Int) < q.size → q.slot i ≠ q.rear.toNat) := by
  obtain ⟨q0, hctor, hc, hrep⟩ := Queue.Rep_ctor (T := T) c h0 h1
  refine ⟨q0, hctor, ?_⟩
  rintro ops hg pre ⟨t, rfl⟩
  obtain ⟨outs, q, l, hrun, _, _, hrepq⟩ :=
    Queue.Rep_run pre q0 [] hrep (q0.popsGuarded_prefix pre t hg)
  obtain ⟨hinv, hring, _, _⟩ := hrepq
  obtain ⟨hdl, hc0, hc1, hs0, hs1, hf0, hf1, hr0, hr1⟩ := id hinv
  refine ⟨outs, q, hrun, hring, ?_, ?_⟩
  · unfold Queue.Ring at hring
    unfold Queue.Count
    rw [emod_wrap (by omega) (by omega)] at hring
    split at hring <;> constructor <;> intro h <;> omega
  · intro hroom i hi
    unfold Queue.Count at hroom
    have hse := q.slot_eq hinv i (by omega)
    unfold Queue.Ring at hring
    rw [emod_wrap (by omega) (by omega)] at hring
    rw [hse]
    split at hring <;> split <;> omega

theorem tail_is_head_plus_count_witness :
    (0 : Int) < 2 ∧ (2 : Int) ≤ INT_MAX ∧
    ∃ q0 : Queue Int, Queue.ctor 2 = .ok q0 ∧
      q0.popsGuarded [.push 1, .push 2, .push 3, .pop, .popWithTimeout 10] = true ∧
      ∃ outs q, q0.run [.push 1, .push 2, .push 3, .pop, .popWithTimeout 10] =
          some (outs, q) ∧
        q.rear = (q.front + q.size) % q.capacity ∧
        (q.front = q.rear ↔ q.Count = 0 ∨ q.Count = q.capacity) ∧
        (q.Count < q.capacity →
          ∀ i : Nat, (i : Int) < q.size → q.slot i ≠ q.rear.toNat) := by
  refine ⟨by decide, by decide, ?_⟩
  obtain ⟨q0, hc, h⟩ := tail_is_head_plus_count (T := Int) 2 (by decide) (by decide)
  have hq : q0 = ⟨[0, 0], 2, 0, 0, 0⟩ := by
    have h2 : Queue.ctor (T := Int) 2 = .ok ⟨[0, 0], 2, 0, 0, 0⟩ := rfl
    rw [h2] at hc
    injection hc with hc
    exact hc.symm
  subst hq
  have hg : (⟨[0, 0], 2, 0, 0, 0⟩ : Queue Int).popsGuarded
      [.push 1, .push 2, .push 3, .pop, .popWithTimeout 10] = true := by decide
  exact ⟨_, hc, hg, h _ hg _ (List.prefix_refl _)⟩

theorem TestQueue.invoke_eq {T : Type} (q : Queue T) (call : Call T) :
    TestQueue.invoke q call = q.invoke call := by
  cases call <;> rfl

theorem TestQueue.trace_eq {T : Type} (calls : List (Call T)) :
    ∀ q : Queue T, TestQueue.trace q calls = q.trace calls := by
  induction calls with
  | nil => intro q; rfl
  | cons call calls ih =>
    intro q
    simp only [TestQueue.trace, Queue.trace, TestQueue.invoke_eq]
    cases (q.invoke call).state? with
    | none => rfl
    | some q1 => simp only [ih q1]

/-- The statements of the member functions compute the same in both classes:
for every capacity the two constructors have the same result, in every state
each of `Push`, `Pop`, `PopWithTimeout`, `Count` and `Size` has the same
outcome, and so has every sequence of such calls after a construction.  Whether
a caller of these functions compiles is a separate matter, see
`Queue.program`. -/
theorem TestQueue.session_eq {T : Type} [Inhabited T] (c : Int) (calls : List (Call T)) :
    TestQueue.ctor (T := T) c = Queue.ctor c ∧
    (∀ (q : Queue T) (e : T), TestQueue.Push q e = q.Push e) ∧
    (∀ q : Queue T, TestQueue.Pop q = q.Pop) ∧
    (∀ (q : Queue T) (ms : Int), TestQueue.PopWithTimeout q ms = q.PopWithTimeout ms) ∧
    (∀ q : Queue T, TestQueue.Count q = q.Count) ∧
    (∀ q : Queue T, TestQueue.Size q = q.Size) ∧
    (∀ q : Queue T, TestQueue.trace q calls = q.trace calls) ∧
    TestQueue.session c calls = Queue.session c calls := by
  refine ⟨rfl, fun _ _ => rfl, fun _ => rfl, fun _ _ => rfl, fun _ => rfl, fun _ => rfl,
    TestQueue.trace_eq calls, ?_⟩
  unfold TestQueue.session Queue.session
  have hctor : TestQueue.ctor (T := T) c = Queue.ctor c := rfl
  rw [hctor]
  cases Queue.ctor (T := T) c with
  | error e => rfl
  | ok q => simp only [TestQueue.trace_eq]

/-- C2. Pushing into a full queue evicts exactly the oldest unpopped element:
for every capacity `c > 0` (an `int`) and every state reached from a freshly
constructed queue by a sequence of `Push`, `Pop` and `PopWithTimeout` calls
that runs to its end, if the state is full (`Count() = capacity`) with live
contents `x :: l` (oldest first), then `Push(e)` returns, leaves `Count()`
equal to the capacity and the live contents equal to `l ++ [e]`, and the next
`Pop` returns the first element of `l ++ [e]`. -/
theorem push_full_evicts_oldest {T : Type} [Inhabited T] (c : Int) (h0 : 0 < c)
    (h1 : c ≤ INT_MAX) :
    ∃ q0 : Queue T, Queue.ctor c = .ok q0 ∧
      ∀ (ops : List (Op T)) (outs : List (Except Exn (Option T))) (q : Queue T),
        q0.run ops = some (outs, q) →
          q.capacity = c ∧
          ∀ (x : T) (l : List T) (e : T), q.Count = q.capacity →
            q.live = (x :: l).map some →
              ∃ q1, q.Push e = .returns () q1 ∧ q1.Count = q.capacity ∧
                q1.live = (l ++ [e]).map some ∧
                ∃ y q2, q1.Pop = .returns y q2 ∧ (l ++ [e]).head? = some y := by
  obtain ⟨q0, hctor, hc, hrep0⟩ := Queue.Rep_ctor (T := T) c h0 h1
  refine ⟨q0, hctor, fun ops outs q hrun => ?_⟩
  obtain ⟨l0, hrep⟩ := Queue.Rep_reached ops q0 [] hrep0 outs q hrun
  refine ⟨by rw [Queue.run_capacity ops q0 q outs hrun, hc], fun x l e hfull hlive => ?_⟩
  exact Queue.push_full_of_ring q x l e hrep.1 hrep.2.1 hfull hlive

theorem push_full_evicts_oldest_witness :
    (0 : Int) < 2 ∧ (2 : Int) ≤ INT_MAX ∧
    Queue.ctor (T := Int) 2 = .ok ⟨[0, 0], 2, 0, 0, 0⟩ ∧
    (⟨[0, 0], 2, 0, 0, 0⟩ : Queue Int).run [.push 1, .push 2] =
      some ([.ok none, .ok none], ⟨[1, 2], 2, 2, 0, 0⟩) ∧
    (⟨[1, 2], 2, 2, 0, 0⟩ : Queue Int).live = [some 1, some 2] ∧
    ∃ q1, (⟨[1, 2], 2, 2, 0, 0⟩ : Queue Int).Push 3 = .returns () q1 ∧
      q1.Count = 2 ∧ q1.live = [some 2, some 3] ∧
      ∃ y q2, q1.Pop = .returns y q2 ∧ some 2 = some y := by
  refine ⟨by decide, by decide, rfl, rfl, by decide, ?_⟩
  obtain ⟨q0, hc, h⟩ := push_full_evicts_oldest (T := Int) 2 (by decide) (by decide)
  have hq : q0 = ⟨[0, 0], 2, 0, 0, 0⟩ := by
    have h2 : Queue.ctor (T := Int) 2 = .ok ⟨[0, 0], 2, 0, 0, 0⟩ := rfl
    rw [h2] at hc
    injection hc with hc
    exact hc.symm
  subst hq
  exact (h [.push 1, .push 2] _ ⟨[1, 2], 2, 2, 0, 0⟩ rfl).2 1 [2] 3 (by decide) (by decide)

/-- C15. Push's step on a non-full queue: for every capacity `c > 0` (an `int`)
and every state reached from a freshly constructed queue by a sequence of
`Push`, `Pop` and `PopWithTimeout` calls that runs to its end, the state
satisfies the structural invariants, and if `Count() < capacity` then `Push(e)`
returns, writes `e` at index `rear`, sets `rear` to `(rear + 1) % capacity`,
increases `size` by exactly one, and leaves `front`, `capacity` and every other
slot of the store unchanged; the slot written is not a live slot, so every live
slot keeps its element and the live contents afterwards are the live contents
before followed by `e`. -/
theorem push_step {T : Type} [Inhabited T] (c : Int) (h0 : 0 < c) (h1 : c ≤ INT_MAX) :
    ∃ q0 : Queue T, Queue.ctor c = .ok q0 ∧
      ∀ (ops : List (Op T)) (outs : List (Except Exn (Option T))) (q : Queue T),
        q0.run ops = some (outs, q) →
          q.Inv ∧
          ∀ e : T, q.Count < q.capacity →
            ∃ q1, q.Push e = .returns () q1 ∧
              q1.data[q.rear.toNat]? = some e ∧
              (∀ j : Nat, j ≠ q.rear.toNat → q1.data[j]? = q.data[j]?) ∧
              q1.data.length = q.data.length ∧
              q1.rear = (q.rear + 1) % q.capacity ∧ q1.size = q.size + 1 ∧
              q1.front = q.front ∧ q1.capacity = q.capacity ∧
              (∀ i : Nat, (i : Int) < q.size → q.slot i ≠ q.rear.toNat) ∧
              (∀ i : Nat, (i : Int) < q.size → q1.data[q.slot i]? = q.data[q.slot i]?) ∧
              q1.live = q.live ++ [some e] := by
  obtain ⟨q0, hctor, hc, hrep0⟩ := Queue.Rep_ctor (T := T) c h0 h1
  refine ⟨q0, hctor, fun ops outs q hrun => ?_⟩
  obtain ⟨l0, hrep⟩ := Queue.Rep_reached ops q0 [] hrep0 outs q hrun
  refine ⟨hrep.1, fun e hroom => ?_⟩
  obtain ⟨q1, hp, hw, hframe, hlen, hr, hs, hf, hcap, hring⟩ :=
    Queue.push_step_of_inv q e hrep.1 hroom
  obtain ⟨hnot, hlive⟩ := hring hrep.2.1
  exact ⟨q1, hp, hw, hframe, hlen, hr, hs, hf, hcap, hnot,
    fun i hi => hframe (q.slot i) (hnot i hi), hlive⟩

theorem push_step_witness :
    (0 : Int) < 3 ∧ (3 : Int) ≤ INT_MAX ∧
    Queue.ctor (T := Int) 3 = .ok ⟨[0, 0, 0], 3, 0, 0, 0⟩ ∧
    (⟨[0, 0, 0], 3, 0, 0, 0⟩ : Queue Int).run [.push 1, .push 2, .push 3, .pop, .pop] =
      some ([.ok none, .ok none, .ok none, .ok (some 1), .ok (some 2)],
        ⟨[1, 2, 3], 3, 1, 2, 0⟩) ∧
    (⟨[1, 2, 3], 3, 1, 2, 0⟩ : Queue Int).Count < (⟨[1, 2, 3], 3, 1, 2, 0⟩ : Queue Int).capacity ∧
    (⟨[1, 2, 3], 3, 1, 2, 0⟩ : Queue Int).Push 9 = .returns () ⟨[9, 2, 3], 3, 2, 2, 1⟩ ∧
    (⟨[9, 2, 3], 3, 2, 2, 1⟩ : Queue Int).live =
      (⟨[1, 2, 3], 3, 1, 2, 0⟩ : Queue Int).live ++ [some 9] := by
  refine ⟨by decide, by decide, rfl, rfl, by decide, by decide, ?_⟩
  obtain ⟨q0, hc, h⟩ := push_step (T := Int) 3 (by decide) (by decide)
  have hq : q0 = ⟨[0, 0, 0], 3, 0, 0, 0⟩ := by
    have h2 : Queue.ctor (T := Int) 3 = .ok ⟨[0, 0, 0], 3, 0, 0, 0⟩ := rfl
    rw [h2] at hc
    injection hc with hc
    exact hc.symm
  subst hq
  obtain ⟨q1, hp, _, _, _, _, _, _, _, _, _, hlive⟩ :=
    (h [.push 1, .push 2, .push 3, .pop, .pop] _ ⟨[1, 2, 3], 3, 1, 2, 0⟩ rfl).2 9
      (by decide)
  have h2 : (⟨[1, 2, 3], 3, 1, 2, 0⟩ : Queue Int).Push 9 =
      .returns () ⟨[9, 2, 3], 3, 2, 2, 1⟩ := by decide
  rw [h2] at hp
  injection hp with _ hq
  rw [hq]
  exact hlive

/-- A caller that makes no `Count` call compiles against both classes, and its
session is the same with both. -/
theorem TestQueue.program_eq_of_no_count {T : Type} [Inhabited T] (c : Int)
    (calls : List (Call T)) (h : Call.count ∉ calls) :
    Queue.program c calls = some (Queue.session c calls) ∧
    TestQueue.program c calls = Queue.program c calls := by
  have h1 : calls.all
      (fun call => (Queue.memberFn call).wellFormed Queue.mutexIsMutable) = true := by
    rw [List.all_eq_true]
    intro call hmem
    cases call with
    | count => exact absurd hmem h
    | push e => rfl
    | pop => rfl
    | popWithTimeout ms => rfl
    | size => rfl
  have h2 : calls.all
      (fun call => (TestQueue.memberFn call).wellFormed TestQueue.mutexIsMutable) = true := by
    rw [List.all_eq_true]
    intro call _
    cases call <;> rfl
  unfold TestQueue.program Queue.program
  rw [h1, h2]
  simp only [if_true, (TestQueue.session_eq c calls).2.2.2.2.2.2.2]
  exact ⟨trivial, trivial⟩

/-- C18, the failing input.  The caller of the test `Count` (construct with
capacity 5, then `Count`, `Push(1)`, `Count`, `Push(2)`, `Count`, `Pop`,
`Count`) compiles against the copy of the class in the test file and gets 0,
1, 2 and 1 from the four `Count` calls; against the class of the program it
does not compile, because `Count() const` there locks the member `mutex`, which
is not `mutable`.  The same holds for the caller that only calls `Count`. -/
theorem program_count_cannot_be_called :
    (Queue.memberFn (T := Int) .count).wellFormed Queue.mutexIsMutable = false ∧
    (TestQueue.memberFn (T := Int) .count).wellFormed TestQueue.mutexIsMutable = true ∧
    Queue.program (T := Int) 5 [.count] = none ∧
    TestQueue.program (T := Int) 5 [.count] =
      some (.ok [.returns (.int 0) ⟨[0, 0, 0, 0, 0], 5, 0, 0, 0⟩]) ∧
    Queue.program (T := Int) 5 [.count, .push 1, .count, .push 2, .count, .pop, .count] =
      none ∧
    TestQueue.program (T := Int) 5 [.count, .push 1, .count, .push 2, .count, .pop, .count] =
      some (.ok [.returns (.int 0) ⟨[0, 0, 0, 0, 0], 5, 0, 0, 0⟩,
        .returns .void ⟨[1, 0, 0, 0, 0], 5, 1, 0, 1⟩,
        .returns (.int 1) ⟨[1, 0, 0, 0, 0], 5, 1, 0, 1⟩,
        .returns .void ⟨[1, 2, 0, 0, 0], 5, 2, 0, 2⟩,
        .returns (.int 2) ⟨[1, 2, 0, 0, 0], 5, 2, 0, 2⟩,
        .returns (.element 1) ⟨[1, 2, 0, 0, 0], 5, 1, 1, 2⟩,
        .returns (.int 1) ⟨[1, 2, 0, 0, 0], 5, 1, 1, 2⟩]) :=
  ⟨rfl, rfl, rfl, rfl, rfl, rfl⟩
